import Mathlib

/-!
Verification of the gallery indexer (`scripts/generate_indexes.py`).

The development shallowly embeds the incremental indexing engine of the
`ImageProcessor` class: album discovery, image validation, thumbnail
staleness/synchronisation, manifest reconciliation, and the CLI driver.
Pure data (JSON manifests, directory listings) is modelled by inductive
types; the external collaborators (PIL decoding, the ImageMagick
`convert` call, SHA-256 hashing) are modelled by content-determined
fields of the file records, as the spec treats them as opaque oracles.
Python exceptions that the program does not catch are modelled by
`Option`/`Except` results.
-/

/-- JSON values, as produced by `json.load`/`json.dump`.  Arrays and
objects are cons-encoded (`jarrCons`/`jobjCons` chains ending in
`jarrNil`/`jobjNil`) so that decidable equality can be derived; the
helpers `Json.jarrOf` and `Json.jobjOf` build them from Lean lists.
Numbers are restricted to naturals (the indexer only ever emits sizes,
dimensions and timestamps) and ISO-8601 timestamp strings are modelled
by the natural number they are injectively derived from. -/
inductive Json where
  | jnull
  | jbool (b : Bool)
  | jnat (n : Nat)
  | jstr (s : String)
  | jarrNil
  | jarrCons (hd tl : Json)
  | jobjNil
  | jobjCons (k : String) (v tl : Json)
deriving DecidableEq, Repr

/-- Build a JSON array from a list of values. -/
def Json.jarrOf (l : List Json) : Json :=
  l.foldr Json.jarrCons Json.jarrNil

/-- Build a JSON object from a list of key-value pairs. -/
def Json.jobjOf (l : List (String × Json)) : Json :=
  l.foldr (fun p t => Json.jobjCons p.1 p.2 t) Json.jobjNil

/-- Python `dict.get` on a decoded JSON object: first binding of the key,
`none` when the key is absent or the value is not an object. -/
def Json.get : Json → String → Option Json
  | .jobjCons k v t, key => if k = key then some v else t.get key
  | _, _ => none

/-- Python truthiness of a decoded JSON value (`None`, `False`, `0`, `""`,
`[]` and the empty object are falsy). -/
def Json.truthy : Json → Bool
  | .jnull => false
  | .jbool b => b
  | .jnat n => n ≠ 0
  | .jstr s => s ≠ ""
  | .jarrNil => false
  | .jarrCons _ _ => true
  | .jobjNil => false
  | .jobjCons _ _ _ => true

/-- Whether the value heads an object (Python `dict`), i.e. supports
attribute access such as `.get`. -/
def Json.isObj : Json → Bool
  | .jobjNil => true
  | .jobjCons _ _ _ => true
  | _ => false

/-- Whether the value can be a Python `dict` key (lists and dicts are
unhashable). -/
def Json.hashable : Json → Bool
  | .jarrNil => false
  | .jarrCons _ _ => false
  | .jobjNil => false
  | .jobjCons _ _ _ => false
  | _ => true

/-- A source image file inside an album directory.  `hash` stands for the
SHA-256 digest of the file's bytes (`calculate_image_hash`: a streaming
digest, deterministic in the content); `decodes` for whether
`PIL.Image.open(...).verify()` succeeds; `convertOk` for whether the
external ImageMagick `convert` invocation on this content succeeds
(non-zero exit modelled as `false`).  `width`/`height` are the decoded
dimensions, `fsize` the byte size (`stat().st_size`), `mtime` the
modification time (`stat().st_mtime`). -/
structure SrcFile where
  name : String
  mtime : Nat
  fsize : Nat
  width : Nat
  height : Nat
  hash : String
  decodes : Bool
  convertOk : Bool
deriving DecidableEq, Repr

/-- A file in an album's `thumbnails` directory. `decodes` models whether
`PIL.Image.open` succeeds on it. -/
structure Thumb where
  name : String
  mtime : Nat
  width : Nat
  height : Nat
  decodes : Bool
deriving DecidableEq, Repr

/-- An `index.json` file on disk: either well-formed JSON or a file whose
read/parse raises (unreadable or malformed). -/
inductive MDisk where
  | malformed
  | valid (j : Json)
deriving DecidableEq, Repr

/-- A directory directly under the gallery root: its name, its regular
files, its `thumbnails` subdirectory (existence flag plus contents) and
its `index.json` (if any). -/
structure Album where
  name : String
  files : List SrcFile
  thumbs : List Thumb
  thumbsDirExists : Bool
  manifest : Option MDisk
deriving DecidableEq, Repr

/-- The gallery root: whether the root path exists, the root
`index.json`, and the immediate subdirectories. -/
structure Gallery where
  rootExists : Bool
  rootManifest : Option MDisk
  dirs : List Album
deriving DecidableEq, Repr

/-- The CLI configuration (`path` is carried by the `Gallery` value). -/
structure Cfg where
  extensions : List String
  thumbW : Nat
  thumbH : Nat
  dryRun : Bool
deriving DecidableEq, Repr

/-- Observable actions of a run: filesystem writes, external-process
invocations, and the console decisions the program prints. -/
inductive Event where
  | mkThumbDir (album : String)
  | wroteRootManifest (j : Json)
  | logRootCreated (n : Nat)
  | logRootUpToDate (dry : Bool)
  | logInvalidImage (album image : String)
  | ranConvert (album image : String) (ok : Bool)
  | wroteThumb (album image : String)
  | logThumbUpToDate (album image : String)
  | logWouldCreateThumb (album image : String)
  | wroteAlbumManifest (album : String) (j : Json)
  | logAlbumCreated (album : String) (n : Nat)
  | logAlbumUpToDate (album : String) (dry : Bool)
deriving DecidableEq, Repr

/-- Filesystem mutations among the events. -/
def Event.isFsWrite : Event → Bool
  | .mkThumbDir _ => true
  | .wroteRootManifest _ => true
  | .wroteThumb _ _ => true
  | .wroteAlbumManifest _ _ => true
  | _ => false

/-- Filesystem mutations or external-tool invocations. -/
def Event.isMutationOrCall : Event → Bool
  | .ranConvert _ _ _ => true
  | e => e.isFsWrite

/-- Python `str.lower` on one character, for the ASCII letters the
indexer's extension handling concerns (a kernel-computable model of
`str.lower`). -/
def pyLowerChar (c : Char) : Char :=
  if 'A' ≤ c ∧ c ≤ 'Z' then Char.ofNat (c.toNat + 32) else c

/-- Python `str.lower`. -/
def pyLower (s : String) : String :=
  String.mk (s.toList.map pyLowerChar)

/-- Python `str.startswith(".")`. -/
def startsWithDot (s : String) : Bool :=
  match s.toList with
  | '.' :: _ => true
  | _ => false

/-- Code-point lexicographic comparison of character lists, the order
Python's `list.sort()` applies to the image paths of one directory. -/
def charListLe : List Char → List Char → Bool
  | [], _ => true
  | _ :: _, [] => false
  | a :: as, b :: bs => if a < b then true else if b < a then false else charListLe as bs

/-- Lexicographic string comparison. -/
def strLe (s t : String) : Bool := charListLe s.toList t.toList

/-- `pathlib.PurePath.suffix` of a file name: the final dotted extension,
empty unless the last dot is at an index `i` with `0 < i < len - 1`. -/
def pySuffix (name : String) : String :=
  let cs := name.toList
  match (cs.reverse.indexOf? '.') with
  | none => ""
  | some revIdx =>
    let i := cs.length - 1 - revIdx
    if 0 < i ∧ i < cs.length - 1 then String.mk (cs.drop i) else ""

/-- Extension normalisation performed in `ImageProcessor.__init__`:
lower-case, with a leading dot added when absent. -/
def normalizeExts (exts : List String) : List String :=
  exts.map (fun ext => if startsWithDot ext then pyLower ext else "." ++ pyLower ext)

/-- The processor's configuration after `__init__` (extensions already
normalised). -/
structure PCfg where
  extensions : List String
  thumbW : Nat
  thumbH : Nat
  dryRun : Bool
deriving DecidableEq, Repr

/-- Construction of the processor state from the CLI configuration. -/
def mkPCfg (c : Cfg) : PCfg :=
  ⟨normalizeExts c.extensions, c.thumbW, c.thumbH, c.dryRun⟩

/-- `get_albums`: the subdirectories of the root whose name is not the
reserved `thumbnails` directory name. -/
def getAlbums (g : Gallery) : List Album :=
  g.dirs.filter (fun d => d.name ≠ "thumbnails")

/-- `is_valid_image`: extension allow-list check (case-insensitive on the
file's suffix) followed by a decode check. -/
def isValidImage (exts : List String) (f : SrcFile) : Bool :=
  exts.contains (pyLower (pySuffix f.name)) && f.decodes

/-- `get_image_info`: freshly computed manifest metadata of an image.
The `modified` ISO string is modelled by the mtime it is derived from. -/
def getImageInfo (f : SrcFile) : Json :=
  Json.jobjOf [("name", .jstr f.name), ("width", .jnat f.width),
    ("height", .jnat f.height), ("size", .jnat f.fsize),
    ("modified", .jnat f.mtime),
    ("thumbnail", .jstr ("thumbnails/" ++ f.name)),
    ("hash", .jstr f.hash)]

/-- Look a thumbnail up by file name in a thumbnails directory. -/
def findThumbIn (thumbs : List Thumb) (name : String) : Option Thumb :=
  thumbs.find? (fun t => t.name == name)

/-- `should_update_thumbnail`: stale when the thumbnail is missing, or the
source is strictly newer, or the thumbnail fails to open, or its decoded
dimensions differ from the configured target size. -/
def shouldUpdateThumbnail (tw th : Nat) (img : SrcFile) (thumb : Option Thumb) : Bool :=
  match thumb with
  | none => true
  | some t =>
    if img.mtime > t.mtime then true
    else if !t.decodes then true
    else if (t.width, t.height) ≠ (tw, th) then true
    else false

/-- The thumbnail produced by a successful `convert` call: target
dimensions, written now, decodable. -/
def mkFreshThumb (p : PCfg) (now : Nat) (name : String) : Thumb :=
  ⟨name, now, p.thumbW, p.thumbH, true⟩

/-- Replacing (or creating) the thumbnail file of a given name. -/
def replaceThumb (thumbs : List Thumb) (t : Thumb) : List Thumb :=
  thumbs.filter (fun u => u.name != t.name) ++ [t]

/-- `create_thumbnail`: in dry-run mode, report and succeed without
touching anything (note: before any staleness check); otherwise skip
fresh thumbnails, and for stale ones invoke the external `convert`
process, reporting its success.  Returns the success flag, the updated
thumbnails directory and the emitted events. -/
def createThumbnail (p : PCfg) (now : Nat) (an : String) (thumbs : List Thumb)
    (f : SrcFile) : Bool × List Thumb × List Event :=
  if p.dryRun then (true, thumbs, [.logWouldCreateThumb an f.name])
  else if !(shouldUpdateThumbnail p.thumbW p.thumbH f (findThumbIn thumbs f.name)) then
    (true, thumbs, [.logThumbUpToDate an f.name])
  else if f.convertOk then
    (true, replaceThumb thumbs (mkFreshThumb p now f.name),
     [.ranConvert an f.name true, .wroteThumb an f.name])
  else
    (false, thumbs, [.ranConvert an f.name false])

/-- `read_existing_index`: absent file or failed read/parse yields `None`. -/
def readExistingIndex : Option MDisk → Option Json
  | none => none
  | some .malformed => none
  | some (.valid j) => some j

/-- The Python-dict comprehension keying prior manifest entries by their
`name` field (`{img["name"]: img for img in ...}`), iterating an `images`
JSON array.  Fails (`none`) when the value is not a list, an entry is
not an object, an entry lacks a `name` key, or the key is unhashable —
all cases in which the Python expression raises. -/
def imagesDict : Json → Option (List (Json × Json))
  | .jarrNil => some []
  | .jarrCons e rest => do
    let n ← e.get "name"
    if n.hashable then
      let d ← imagesDict rest
      some ((n, e) :: d)
    else none
  | _ => none

/-- Python `dict` lookup over the keyed entries: the binding written last
wins. -/
def lastAssoc (l : List (Json × Json)) (k : Json) : Option Json :=
  match l.reverse.find? (fun p => p.1 == k) with
  | some p => some p.2
  | none => none

/-- The name-indexed lookup of previously recorded entries
(`existing_images`): empty when the prior manifest is falsy, built from
its `images` field (default `[]`) otherwise; `none` models the uncaught
exceptions raised on a truthy non-object manifest or ill-shaped entries. -/
def buildExistingImages (idx : Option Json) : Option (List (Json × Json)) :=
  match idx with
  | none => some []
  | some j =>
    if j.truthy then
      if j.isObj then
        match j.get "images" with
        | some imgs => imagesDict imgs
        | none => imagesDict Json.jarrNil
      else none
    else some []

/-- The per-image reconciliation step (lines 198–207): compute the current
hash, look the file name up among the prior entries, and reuse the prior
entry verbatim when it is truthy and its `hash` field equals the current
hash; otherwise compute fresh metadata.  (Prior entries produced by
`imagesDict` are always objects, so their `.get` cannot raise.) -/
def reconcileImage (existing : List (Json × Json)) (f : SrcFile) : Json :=
  match lastAssoc existing (Json.jstr f.name) with
  | some e => if e.truthy ∧ e.get "hash" = some (Json.jstr f.hash) then e else getImageInfo f
  | none => getImageInfo f

/-- Insert a file into a name-sorted list (helper of the sort model). -/
def insertByName (f : SrcFile) : List SrcFile → List SrcFile
  | [] => [f]
  | g :: rest => if strLe f.name g.name then f :: g :: rest else g :: insertByName f rest

/-- `image_files.sort()`: lexicographic order on the path strings, which
within one directory is lexicographic order on the file names.  (Python's
sort is stable; equal keys only arise for occurrences of one same file,
so insertion sort is an adequate model.) -/
def sortByName : List SrcFile → List SrcFile
  | [] => []
  | f :: rest => insertByName f (sortByName rest)

/-- The candidate files of an album (lines 179–185): one pass over the
directory per configured extension, concatenated. -/
def imageFilesUnsorted (exts : List String) (a : Album) : List SrcFile :=
  (exts.map (fun ext => a.files.filter (fun f => pyLower (pySuffix f.name) == ext))).join

/-- The candidate files of an album in processing order. -/
def sortedImageFiles (exts : List String) (a : Album) : List SrcFile :=
  sortByName (imageFilesUnsorted exts a)

/-- The per-image loop of `process_images` (lines 191–207): skip invalid
images, synchronise the thumbnail, and on success append the reconciled
entry; thread the thumbnails directory state and collect events. -/
def processAlbumLoop (p : PCfg) (now : Nat) (an : String)
    (existing : List (Json × Json)) :
    List SrcFile → List Thumb → List Json × List Thumb × List Event
  | [], thumbs => ([], thumbs, [])
  | f :: rest, thumbs =>
    if isValidImage p.extensions f then
      let r := createThumbnail p now an thumbs f
      let rec' := processAlbumLoop p now an existing rest r.2.1
      ((if r.1 then [reconcileImage existing f] else []) ++ rec'.1,
       rec'.2.1, r.2.2 ++ rec'.2.2)
    else
      let rec' := processAlbumLoop p now an existing rest thumbs
      (rec'.1, rec'.2.1, Event.logInvalidImage an f.name :: rec'.2.2)

/-- The album-manifest write decision (lines 219–222): never in dry-run;
otherwise write when the prior manifest is falsy or its `images` field
differs from the new images sequence; `none` models the attribute error
raised on a truthy non-object prior. -/
def albumWriteDecision (dry : Bool) (existing : Option Json) (imgs : List Json) :
    Option Bool :=
  if dry then some false
  else match existing with
    | none => some true
    | some j =>
      if !j.truthy then some true
      else if j.isObj then some (decide (j.get "images" ≠ some (Json.jarrOf imgs)))
      else none

/-- The assembled album manifest (lines 210–216). -/
def mkAlbumIndex (an : String) (imgs : List Json) (now : Nat) : Json :=
  Json.jobjOf [("name", .jstr an), ("images", Json.jarrOf imgs),
    ("count", .jnat imgs.length), ("generated", .jnat now),
    ("version", .jstr "2.0")]

/-- Processing of one album (lines 167–231): read the prior manifest, key
its entries by name, run the per-image loop over the sorted candidates,
assemble the new manifest and conditionally persist it.  `none` models an
uncaught exception (which aborts the whole run). -/
def processAlbum (p : PCfg) (now : Nat) (a : Album) : Option (Album × List Event) := do
  let existingIdx := readExistingIndex a.manifest
  let existing ← buildExistingImages existingIdx
  let r := processAlbumLoop p now a.name existing (sortedImageFiles p.extensions a) a.thumbs
  let albumIndex := mkAlbumIndex a.name r.1 now
  let wr ← albumWriteDecision p.dryRun existingIdx r.1
  if wr then
    some ({ a with thumbs := r.2.1, manifest := some (.valid albumIndex) },
      r.2.2 ++ [.wroteAlbumManifest a.name albumIndex, .logAlbumCreated a.name r.1.length])
  else
    some ({ a with thumbs := r.2.1 },
      r.2.2 ++ [.logAlbumUpToDate a.name p.dryRun])

/-- The album iteration of `process_images`: every directory whose name is
not `thumbnails` is processed in order; the reserved directory is left
untouched. -/
def processDirs (p : PCfg) (now : Nat) : List Album → Option (List Album × List Event)
  | [] => some ([], [])
  | d :: rest =>
    if d.name = "thumbnails" then do
      let r ← processDirs p now rest
      some (d :: r.1, r.2)
    else do
      let r1 ← processAlbum p now d
      let r ← processDirs p now rest
      some (r1.1 :: r.1, r1.2 ++ r.2)

/-- The root-manifest write decision (lines 156–159): never in dry-run
(the comparison itself is short-circuited away); otherwise write when the
prior root manifest is falsy or its `albums` field differs; `none` models
the attribute error raised on a truthy non-object prior. -/
def rootWriteDecision (dry : Bool) (existing : Option Json) (albumsJson : Json) :
    Option Bool :=
  if dry then some false
  else match existing with
    | none => some true
    | some j =>
      if !j.truthy then some true
      else if j.isObj then some (decide (j.get "albums" ≠ some albumsJson))
      else none

/-- The assembled root manifest (lines 149–153). -/
def mkRootIndex (names : List String) (now : Nat) : Json :=
  Json.jobjOf [("albums", Json.jarrOf (names.map Json.jstr)),
    ("generated", .jnat now), ("version", .jstr "2.0")]

/-- `process_images` (lines 139–231): root manifest phase followed by the
per-album phase.  `none` models an uncaught exception. -/
def processImages (p : PCfg) (now : Nat) (g : Gallery) : Option (Gallery × List Event) := do
  let names := (getAlbums g).map Album.name
  let existingRoot := readExistingIndex g.rootManifest
  let albumsJson := Json.jarrOf (names.map Json.jstr)
  let wr ← rootWriteDecision p.dryRun existingRoot albumsJson
  let rootRes :=
    if wr then (some (MDisk.valid (mkRootIndex names now)),
      [Event.wroteRootManifest (mkRootIndex names now), Event.logRootCreated names.length])
    else (g.rootManifest, [Event.logRootUpToDate p.dryRun])
  let r ← processDirs p now g.dirs
  some ({ g with rootManifest := rootRes.1, dirs := r.1 }, rootRes.2 ++ r.2)

/-- The per-directory `thumbnails` creation loop of `__init__`
(lines 32–36): `mkdir(exist_ok=True)` for every album directory; an event
is recorded only when the directory is actually created. -/
def initAlbumDirs : List Album → List Album × List Event
  | [] => ([], [])
  | d :: rest =>
    let r := initAlbumDirs rest
    if d.name = "thumbnails" then (d :: r.1, r.2)
    else ({ d with thumbsDirExists := true } :: r.1,
      (if d.thumbsDirExists then [] else [Event.mkThumbDir d.name]) ++ r.2)

/-- The `thumbnails`-directory creation of `__init__`: skipped entirely in
dry-run. -/
def initDirs (dry : Bool) (g : Gallery) : Gallery × List Event :=
  if dry then (g, [])
  else ({ g with dirs := (initAlbumDirs g.dirs).1 }, (initAlbumDirs g.dirs).2)

/-- The errors that abort a run: the root-existence precondition of
`__init__` (a `ValueError` reading `Root path does not exist`, the spec's
`InvalidRootError`), and any other uncaught exception. -/
inductive RunError where
  | invalidRoot
  | uncaught
deriving DecidableEq, Repr

/-- One full run of the `try` block of `main`: construct the processor
(which validates the root before touching anything, then creates the
thumbnails directories) and call `process_images`. -/
def runProcessor (c : Cfg) (now : Nat) (g : Gallery) : Except RunError (Gallery × List Event) :=
  if !g.rootExists then .error .invalidRoot
  else
    let p := mkPCfg c
    let r1 := initDirs p.dryRun g
    match processImages p now r1.1 with
    | some r2 => .ok (r2.1, r1.2 ++ r2.2)
    | none => .error .uncaught

/-- The process exit code of `main`: 1 when ImageMagick is unavailable or
the run raised, 0 otherwise. -/
def mainExit (imagemagickOk : Bool) (c : Cfg) (now : Nat) (g : Gallery) : Nat :=
  if !imagemagickOk then 1
  else match runProcessor c now g with
    | .ok _ => 0
    | .error _ => 1

/-- The console skip/would-create decisions of a run, extracted from its
events (write events and warnings carry no decision). -/
inductive Decision where
  | rootCreated
  | rootUpToDate
  | albumCreated (album : String)
  | albumUpToDate (album : String)
  | thumbUpToDate (album image : String)
  | wouldCreateThumb (album image : String)
deriving DecidableEq, Repr

/-- Map a run's events to the decisions it reports. -/
def decisionsOf (evs : List Event) : List Decision :=
  evs.filterMap (fun e =>
    match e with
    | .logRootCreated _ => some .rootCreated
    | .logRootUpToDate _ => some .rootUpToDate
    | .logAlbumCreated a _ => some (.albumCreated a)
    | .logAlbumUpToDate a _ => some (.albumUpToDate a)
    | .logThumbUpToDate a i => some (.thumbUpToDate a i)
    | .logWouldCreateThumb a i => some (.wouldCreateThumb a i)
    | _ => none)

/-- Modelled semantics of the manifest persistence step
(lines 160–161 and 223–224): `open(path, "w")` truncates the file at
once, then `json.dump` streams the serialisation into it; if the process
is interrupted after `k` characters the file holds exactly the first `k`
characters of the new serialisation, the prior content having been
discarded by the truncating open. -/
def interruptedManifestWrite (oldContent newContent : String) (k : Nat) : String :=
  (fun _ => String.mk (newContent.toList.take k)) oldContent

/-- The events the per-image loop can emit (validation warnings, thumbnail
synchronisation actions); manifest writes never originate there. -/
def Event.isImageEvent : Event → Bool
  | .logInvalidImage _ _ => true
  | .ranConvert _ _ _ => true
  | .wroteThumb _ _ => true
  | .logThumbUpToDate _ _ => true
  | .logWouldCreateThumb _ _ => true
  | _ => false

/-- The images sequence the run assembles for an album (empty when the
prior manifest makes the run raise before assembling it). -/
def newAlbumImages (p : PCfg) (now : Nat) (a : Album) : List Json :=
  match buildExistingImages (readExistingIndex a.manifest) with
  | some existing =>
    (processAlbumLoop p now a.name existing (sortedImageFiles p.extensions a) a.thumbs).1
  | none => []

/-- The `images` field of an album's prior manifest, when the manifest is
readable and has one. -/
def priorImagesValue (a : Album) : Option Json :=
  match readExistingIndex a.manifest with
  | some j => j.get "images"
  | none => none

/-- The `name` fields of an images sequence. -/
def imageNames (imgs : List Json) : List (Option Json) :=
  imgs.map (fun e => e.get "name")

/-- The console decisions of a full run (`none` when the run raises). -/
def runDecisions (c : Cfg) (now : Nat) (g : Gallery) : Option (List Decision) :=
  match runProcessor c now g with
  | .ok r => some (decisionsOf r.2)
  | .error _ => none

/-- Whether the per-image loop keeps an image for the manifest: it must
pass validation, and its thumbnail synchronisation must report success
(vacuously in dry-run, because the thumbnail is fresh, or because the
external convert invocation succeeds). -/
def imageOk (p : PCfg) (thumbs : List Thumb) (f : SrcFile) : Bool :=
  isValidImage p.extensions f &&
    (p.dryRun || !(shouldUpdateThumbnail p.thumbW p.thumbH f (findThumbIn thumbs f.name)) ||
      f.convertOk)

/-- The reconciliation choice in the spec's words: if the name-indexed
lookup of prior entries has an entry for this filename whose `hash` field
equals the current hash, reuse that prior entry verbatim; otherwise
compute fresh metadata. -/
def specReuseEntry (existing : List (Json × Json)) (f : SrcFile) : Json :=
  match lastAssoc existing (Json.jstr f.name) with
  | some e => if e.get "hash" = some (Json.jstr f.hash) then e else getImageInfo f
  | none => getImageInfo f

deriving instance DecidableEq for Except

/-- C4 — Thumbnail staleness decision: `should_update_thumbnail` returns
stale exactly when the thumbnail does not exist, or the source image is
strictly newer than the thumbnail, or the thumbnail fails to open, or its
decoded dimensions differ from the configured target size (the checks
being performed in that order by the definition); in all other cases it
returns fresh. -/
theorem shouldUpdateThumbnail_spec (tw th : Nat) (img : SrcFile) (thumb : Option Thumb) :
    shouldUpdateThumbnail tw th img thumb = true ↔
      thumb = none ∨ ∃ t, thumb = some t ∧
        (img.mtime > t.mtime ∨ t.decodes = false ∨ (t.width, t.height) ≠ (tw, th)) := by
  cases thumb with
  | none => simp [shouldUpdateThumbnail]
  | some t =>
    simp only [shouldUpdateThumbnail]
    constructor
    · intro h
      refine Or.inr ⟨t, rfl, ?_⟩
      by_cases h1 : img.mtime > t.mtime
      · exact Or.inl h1
      · by_cases h2 : t.decodes = false
        · exact Or.inr (Or.inl h2)
        · by_cases h3 : (t.width, t.height) ≠ (tw, th)
          · exact Or.inr (Or.inr h3)
          · simp [h1, h2, h3] at h
    · rintro (h | ⟨t', ht', h⟩)
      · exact absurd h (by simp)
      · cases Option.some.inj ht'
        rcases h with h | h | h
        · simp [h]
        · simp [h]
        · by_cases h1 : img.mtime > t.mtime
          · simp [h1]
          · by_cases h2 : t.decodes = false
            · simp [h1, h2]
            · simp [h1, h2, h]

/-- C7 — Per-manifest recoverable failure: an unreadable or malformed
`index.json` reads as `None`, and processing an album whose manifest is
malformed gives exactly the same outcome (state and events) as processing
it with no manifest at all; neither case aborts the run. -/
theorem malformed_manifest_like_absent (p : PCfg) (now : Nat) (a : Album)
    (hdry : p.dryRun = false) :
    readExistingIndex (some MDisk.malformed) = none ∧
    processAlbum p now { a with manifest := some MDisk.malformed } =
      processAlbum p now { a with manifest := none } ∧
    (processAlbum p now { a with manifest := none }).isSome = true := by
  refine ⟨rfl, ?_, ?_⟩
  · simp [processAlbum, readExistingIndex, buildExistingImages, albumWriteDecision, hdry,
      sortedImageFiles, imageFilesUnsorted]
  · simp [processAlbum, readExistingIndex, buildExistingImages, albumWriteDecision, hdry]

/-- Witness for `malformed_manifest_like_absent` at a concrete album. -/
theorem malformed_manifest_like_absent_witness :
    readExistingIndex (some MDisk.malformed) = none ∧
    processAlbum ⟨[".jpg"], 300, 300, false⟩ 7
        { (⟨"A", [], [], true, none⟩ : Album) with manifest := some MDisk.malformed } =
      processAlbum ⟨[".jpg"], 300, 300, false⟩ 7
        { (⟨"A", [], [], true, none⟩ : Album) with manifest := none } ∧
    (processAlbum ⟨[".jpg"], 300, 300, false⟩ 7
        { (⟨"A", [], [], true, none⟩ : Album) with manifest := none }).isSome = true :=
  malformed_manifest_like_absent ⟨[".jpg"], 300, 300, false⟩ 7 ⟨"A", [], [], true, none⟩ rfl

/-- C8 (counterexample) — the claim "a manifest write is an all-or-nothing
replacement; no partially written manifest is ever left on disk" fails:
interrupting the truncate-then-stream write of `"newIndexJson"` over the
prior content `"oldIndexJson"` after 3 characters leaves `"new"`, which is
neither the prior nor the new manifest. -/
theorem manifest_write_partial_possible :
    ¬ (interruptedManifestWrite "oldIndexJson" "newIndexJson" 3 = "oldIndexJson" ∨
       interruptedManifestWrite "oldIndexJson" "newIndexJson" 3 = "newIndexJson") := by
  decide

/-- C8 (amended) — a manifest write truncates the prior content and then
streams the new serialisation in place: the outcome never depends on the
prior content and a completed write replaces it entirely, but an
interrupted write can leave a proper partial manifest on disk. -/
theorem manifest_write_truncate_stream (oldA oldB newContent : String) (k : Nat) :
    interruptedManifestWrite oldA newContent k = interruptedManifestWrite oldB newContent k ∧
    interruptedManifestWrite oldA newContent (newContent.toList.length) = newContent ∧
    ∃ old new i, interruptedManifestWrite old new i ≠ old ∧
      interruptedManifestWrite old new i ≠ new := by
  refine ⟨rfl, ?_, "oldIndexJson", "newIndexJson", 3, by decide, by decide⟩
  show String.mk (newContent.toList.take newContent.toList.length) = newContent
  rw [List.take_length]
  cases newContent
  rfl

/-- C9 — Root precondition failure: when the root path does not exist the
processor construction fails with the invalid-root error before anything
is done (no state change, no events), and `main` exits non-zero. -/
theorem invalid_root_aborts (c : Cfg) (now : Nat) (g : Gallery)
    (h : g.rootExists = false) :
    runProcessor c now g = .error .invalidRoot ∧ mainExit true c now g = 1 := by
  constructor
  · simp [runProcessor, h]
  · simp [mainExit, runProcessor, h]

/-- Witness for `invalid_root_aborts` at a concrete gallery. -/
theorem invalid_root_aborts_witness :
    runProcessor ⟨[".jpg"], 300, 300, false⟩ 0 ⟨false, none, []⟩ = .error .invalidRoot ∧
    mainExit true ⟨[".jpg"], 300, 300, false⟩ 0 ⟨false, none, []⟩ = 1 :=
  invalid_root_aborts ⟨[".jpg"], 300, 300, false⟩ 0 ⟨false, none, []⟩ rfl

theorem processAlbumLoop_cons (p : PCfg) (now : Nat) (an : String)
    (existing : List (Json × Json)) (f : SrcFile) (rest : List SrcFile)
    (thumbs : List Thumb) :
    processAlbumLoop p now an existing (f :: rest) thumbs =
      if isValidImage p.extensions f then
        ((if (createThumbnail p now an thumbs f).1 then [reconcileImage existing f] else []) ++
            (processAlbumLoop p now an existing rest (createThumbnail p now an thumbs f).2.1).1,
         (processAlbumLoop p now an existing rest (createThumbnail p now an thumbs f).2.1).2.1,
         (createThumbnail p now an thumbs f).2.2 ++
            (processAlbumLoop p now an existing rest (createThumbnail p now an thumbs f).2.1).2.2)
      else
        ((processAlbumLoop p now an existing rest thumbs).1,
         (processAlbumLoop p now an existing rest thumbs).2.1,
         Event.logInvalidImage an f.name :: (processAlbumLoop p now an existing rest thumbs).2.2) :=
  rfl

theorem createThumbnail_events_shape (p : PCfg) (now : Nat) (an : String)
    (thumbs : List Thumb) (f : SrcFile) :
    ∀ e ∈ (createThumbnail p now an thumbs f).2.2, e.isImageEvent = true := by
  unfold createThumbnail
  split_ifs <;> simp [Event.isImageEvent]

theorem processAlbumLoop_events_shape (p : PCfg) (now : Nat) (an : String)
    (existing : List (Json × Json)) :
    ∀ (files : List SrcFile) (thumbs : List Thumb),
      ∀ e ∈ (processAlbumLoop p now an existing files thumbs).2.2, e.isImageEvent = true := by
  intro files
  induction files with
  | nil => intro thumbs e he; simp [processAlbumLoop] at he
  | cons f rest ih =>
    intro thumbs e he
    rw [processAlbumLoop_cons] at he
    by_cases hv : isValidImage p.extensions f
    · rw [if_pos hv] at he
      rcases List.mem_append.mp he with h1 | h2
      · exact createThumbnail_events_shape p now an thumbs f e h1
      · exact ih _ e h2
    · rw [if_neg hv] at he
      rcases List.mem_cons.mp he with h1 | h2
      · subst h1; rfl
      · exact ih _ e h2

theorem Json.get_eq_none_of_falsy (j : Json) (h : j.truthy = false) (k : String) :
    j.get k = none := by
  cases j <;> simp_all [Json.truthy, Json.get]


theorem albumWriteDecision_false_iff (existing : Option Json) (imgs : List Json) :
    albumWriteDecision false existing imgs = some false ↔
      ∃ j, existing = some j ∧ j.truthy = true ∧ j.isObj = true ∧
        j.get "images" = some (Json.jarrOf imgs) := by
  unfold albumWriteDecision
  cases existing with
  | none => simp
  | some j =>
    by_cases ht : j.truthy <;> by_cases ho : j.isObj <;> simp [ht, ho]

theorem albumWriteDecision_true_rhs (existing : Option Json) (imgs : List Json)
    (h : albumWriteDecision false existing imgs = some true) :
    existing = none ∨ ∀ j, existing = some j → j.get "images" ≠ some (Json.jarrOf imgs) := by
  cases existing with
  | none => exact Or.inl rfl
  | some j =>
    refine Or.inr (fun j' hj' hget => ?_)
    cases Option.some.inj hj'
    by_cases ht : j.truthy
    · by_cases ho : j.isObj
      · simp [albumWriteDecision, ht, ho] at h
        exact h hget
      · simp [albumWriteDecision, ht, ho] at h
    · rw [Json.get_eq_none_of_falsy j (by simpa using ht)] at hget
      cases hget

/-- C3 test -/
theorem album_manifest_conditional_persist (p : PCfg) (now : Nat) (a a' : Album)
    (ev : List Event) (hdry : p.dryRun = false)
    (h : processAlbum p now a = some (a', ev)) :
    ((∃ j, Event.wroteAlbumManifest a.name j ∈ ev) ↔
      (readExistingIndex a.manifest = none ∨
        priorImagesValue a ≠ some (Json.jarrOf (newAlbumImages p now a)))) ∧
    ((readExistingIndex a.manifest ≠ none ∧
        priorImagesValue a = some (Json.jarrOf (newAlbumImages p now a))) →
      (a'.manifest = a.manifest ∧ Event.logAlbumUpToDate a.name false ∈ ev)) := by
  cases hb : buildExistingImages (readExistingIndex a.manifest) with
  | none => simp [processAlbum, hb] at h
  | some existing =>
    have himgs : newAlbumImages p now a =
        (processAlbumLoop p now a.name existing (sortedImageFiles p.extensions a) a.thumbs).1 := by
      simp [newAlbumImages, hb]
    simp only [processAlbum, hb, Option.bind_eq_bind, Option.some_bind, hdry] at h
    set L := processAlbumLoop p now a.name existing (sortedImageFiles p.extensions a) a.thumbs with hL
    cases hd : albumWriteDecision false (readExistingIndex a.manifest) L.1 with
    | none => rw [hd] at h; simp at h
    | some wr =>
      rw [hd] at h
      simp only [Option.some_bind] at h
      cases wr with
      | true =>
        rw [if_pos rfl] at h
        simp only [Option.some.injEq, Prod.mk.injEq] at h
        obtain ⟨ha', hev⟩ := h
        constructor
        · refine iff_of_true ⟨mkAlbumIndex a.name L.1 now, ?_⟩ ?_
          · rw [← hev]; simp
          · rcases albumWriteDecision_true_rhs _ _ hd with hnone | hne
            · exact Or.inl hnone
            · cases hre : readExistingIndex a.manifest with
              | none => exact Or.inl rfl
              | some j =>
                refine Or.inr ?_
                rw [himgs]
                simp only [priorImagesValue, hre]
                exact hne j hre
        · rintro ⟨hne, heq⟩
          exfalso
          rcases albumWriteDecision_true_rhs _ _ hd with hnone | hnej
          · exact hne hnone
          · cases hre : readExistingIndex a.manifest with
            | none => exact hne hre
            | some j =>
              apply hnej j hre
              rw [himgs] at heq
              simpa [priorImagesValue, hre] using heq
      | false =>
        rw [if_neg (by simp)] at h
        simp only [Option.some.injEq, Prod.mk.injEq] at h
        obtain ⟨ha', hev⟩ := h
        obtain ⟨j, hre, ht, ho, heq⟩ := (albumWriteDecision_false_iff _ _).mp hd
        constructor
        · refine iff_of_false ?_ ?_
          · rintro ⟨j', hj'⟩
            rw [← hev] at hj'
            rcases List.mem_append.mp hj' with h1 | h2
            · have := processAlbumLoop_events_shape p now a.name existing
                (sortedImageFiles p.extensions a) a.thumbs _ h1
              simp [Event.isImageEvent] at this
            · simp at h2
          · rintro (h1 | h2)
            · rw [hre] at h1; cases h1
            · apply h2
              rw [himgs]
              simp only [priorImagesValue, hre]
              exact heq
        · intro _
          constructor
          · rw [← ha']
          · rw [← hev]; simp

/-- Witness for `album_manifest_conditional_persist`: an album with no
prior manifest gets its manifest written. -/
theorem album_manifest_conditional_persist_witness :
    ∃ j, Event.wroteAlbumManifest "A" j ∈
      [Event.wroteAlbumManifest "A" (mkAlbumIndex "A" [] 5), Event.logAlbumCreated "A" 0] :=
  (album_manifest_conditional_persist ⟨[".jpg"], 300, 300, false⟩ 5
    ⟨"A", [], [], true, none⟩
    ⟨"A", [], [], true, some (MDisk.valid (mkAlbumIndex "A" [] 5))⟩
    [Event.wroteAlbumManifest "A" (mkAlbumIndex "A" [] 5), Event.logAlbumCreated "A" 0]
    rfl (by decide)).1.mpr (Or.inl rfl)

theorem createThumbnail_dry (p : PCfg) (now : Nat) (an : String) (thumbs : List Thumb)
    (f : SrcFile) (hdry : p.dryRun = true) :
    createThumbnail p now an thumbs f = (true, thumbs, [.logWouldCreateThumb an f.name]) := by
  simp [createThumbnail, hdry]

theorem processAlbumLoop_dry (p : PCfg) (now : Nat) (an : String)
    (existing : List (Json × Json)) (hdry : p.dryRun = true) :
    ∀ (files : List SrcFile) (thumbs : List Thumb),
      (processAlbumLoop p now an existing files thumbs).2.1 = thumbs ∧
      ∀ e ∈ (processAlbumLoop p now an existing files thumbs).2.2,
        e.isMutationOrCall = false := by
  intro files
  induction files with
  | nil => intro thumbs; exact ⟨rfl, by simp [processAlbumLoop]⟩
  | cons f rest ih =>
    intro thumbs
    rw [processAlbumLoop_cons]
    by_cases hv : isValidImage p.extensions f
    · rw [if_pos hv, createThumbnail_dry p now an thumbs f hdry]
      refine ⟨(ih thumbs).1, ?_⟩
      intro e he
      rcases List.mem_append.mp he with he | he
      · rcases List.mem_singleton.mp he with rfl
        rfl
      · exact (ih thumbs).2 e he
    · rw [if_neg hv]
      refine ⟨(ih thumbs).1, ?_⟩
      intro e he
      rcases List.mem_cons.mp he with he | he
      · subst he; rfl
      · exact (ih thumbs).2 e he

theorem processAlbum_dry (p : PCfg) (now : Nat) (a a' : Album) (ev : List Event)
    (hdry : p.dryRun = true) (h : processAlbum p now a = some (a', ev)) :
    a' = a ∧ ∀ e ∈ ev, e.isMutationOrCall = false := by
  cases hb : buildExistingImages (readExistingIndex a.manifest) with
  | none => simp [processAlbum, hb] at h
  | some existing =>
    simp only [processAlbum, hb, Option.bind_eq_bind, Option.some_bind, hdry,
      albumWriteDecision, if_true] at h
    simp only [Option.some_bind, Bool.false_eq_true, if_false, Option.some.injEq,
      Prod.mk.injEq] at h
    obtain ⟨ha', hev⟩ := h
    have hloop := processAlbumLoop_dry p now a.name existing hdry
      (sortedImageFiles p.extensions a) a.thumbs
    constructor
    · rw [← ha', hloop.1]
    · intro e he
      rw [← hev] at he
      rcases List.mem_append.mp he with he | he
      · exact hloop.2 e he
      · rcases List.mem_singleton.mp he with rfl
        rfl

theorem processDirs_dry (p : PCfg) (now : Nat) (hdry : p.dryRun = true) :
    ∀ (dirs dirs' : List Album) (ev : List Event),
      processDirs p now dirs = some (dirs', ev) →
      dirs' = dirs ∧ ∀ e ∈ ev, e.isMutationOrCall = false := by
  intro dirs
  induction dirs with
  | nil =>
    intro dirs' ev h
    simp only [processDirs, Option.some.injEq, Prod.mk.injEq] at h
    exact ⟨h.1.symm, by rw [← h.2]; simp⟩
  | cons d rest ih =>
    intro dirs' ev h
    by_cases hn : d.name = "thumbnails"
    · simp only [processDirs, hn, if_pos, Option.bind_eq_bind] at h
      cases hr : processDirs p now rest with
      | none => rw [hr] at h; simp at h
      | some r =>
        rw [hr] at h
        simp only [Option.some_bind] at h
        cases h
        obtain ⟨hrest, hev⟩ := ih r.1 r.2 (by rw [hr])
        exact ⟨by rw [hrest], hev⟩
    · simp only [processDirs, hn, if_neg, Option.bind_eq_bind] at h
      cases ha : processAlbum p now d with
      | none => rw [ha] at h; simp at h
      | some r1 =>
        rw [ha] at h
        simp only [Option.some_bind] at h
        cases hr : processDirs p now rest with
        | none => rw [hr] at h; simp at h
        | some r =>
          rw [hr] at h
          simp only [Option.some_bind] at h
          cases h
          obtain ⟨ha1, hev1⟩ := processAlbum_dry p now d r1.1 r1.2 hdry (by rw [ha])
          obtain ⟨hrest, hev⟩ := ih r.1 r.2 (by rw [hr])
          constructor
          · rw [ha1, hrest]
          · intro e he
            rcases List.mem_append.mp he with he | he
            · exact hev1 e he
            · exact hev e he

theorem processImages_dry (p : PCfg) (now : Nat) (g g' : Gallery) (ev : List Event)
    (hdry : p.dryRun = true) (h : processImages p now g = some (g', ev)) :
    g' = g ∧ ∀ e ∈ ev, e.isMutationOrCall = false := by
  simp only [processImages, rootWriteDecision, hdry, if_true, Option.bind_eq_bind,
    Option.some_bind, Bool.false_eq_true, if_false] at h
  cases hr : processDirs p now g.dirs with
  | none => rw [hr] at h; simp at h
  | some r =>
    rw [hr] at h
    simp only [Option.some_bind, Option.some.injEq, Prod.mk.injEq] at h
    obtain ⟨h1, h2⟩ := h
    obtain ⟨hrest, hev⟩ := processDirs_dry p now hdry g.dirs r.1 r.2 (by rw [hr])
    constructor
    · rw [← h1, hrest]
    · intro e he
      rw [← h2] at he
      rcases List.mem_append.mp he with he | he
      · rcases List.mem_singleton.mp he with rfl
        rfl
      · exact hev e he

/-- C5 (amended part) — Dry-run mutation purity: a dry run that completes
leaves the gallery state exactly unchanged and performs no filesystem
write, no directory creation and no external-tool invocation. -/
theorem dry_run_no_mutation (c : Cfg) (now : Nat) (g g' : Gallery) (ev : List Event)
    (hdry : c.dryRun = true) (h : runProcessor c now g = .ok (g', ev)) :
    g' = g ∧ ∀ e ∈ ev, e.isMutationOrCall = false := by
  unfold runProcessor at h
  by_cases hre : g.rootExists
  · rw [if_neg (by simp [hre])] at h
    have hp : (mkPCfg c).dryRun = true := hdry
    simp only [initDirs, hp, if_true] at h
    cases hpi : processImages (mkPCfg c) now g with
    | none => rw [hpi] at h; cases h
    | some r2 =>
      rw [hpi] at h
      simp only [Except.ok.injEq, Prod.mk.injEq] at h
      obtain ⟨h1, h2⟩ := h
      obtain ⟨hg, hev⟩ := processImages_dry (mkPCfg c) now g r2.1 r2.2 hp (by rw [hpi])
      constructor
      · rw [← h1, hg]
      · intro e he
        rw [← h2] at he
        simp only [List.nil_append] at he
        exact hev e he
  · rw [if_pos (by simp [hre])] at h
    cases h

/-- C5 (counterexample) — the claim that a dry run "still performs the
manifest up-to-date comparison and produces the same skip/would-create
log decisions as a real run" fails: over a root with no manifests and one
empty album, a real run reports both manifests as created while the dry
run reports both as up to date. -/
theorem dry_run_reports_differently :
    runDecisions ⟨[".jpg"], 300, 300, false⟩ 10 ⟨true, none, [⟨"A", [], [], true, none⟩]⟩ =
      some [Decision.rootCreated, Decision.albumCreated "A"] ∧
    runDecisions ⟨[".jpg"], 300, 300, true⟩ 10 ⟨true, none, [⟨"A", [], [], true, none⟩]⟩ =
      some [Decision.rootUpToDate, Decision.albumUpToDate "A"] ∧
    runDecisions ⟨[".jpg"], 300, 300, false⟩ 10 ⟨true, none, [⟨"A", [], [], true, none⟩]⟩ ≠
      runDecisions ⟨[".jpg"], 300, 300, true⟩ 10 ⟨true, none, [⟨"A", [], [], true, none⟩]⟩ := by
  refine ⟨by decide, by decide, by decide⟩

/-- Witness for `dry_run_no_mutation` at a concrete dry run. -/
theorem dry_run_no_mutation_witness :
    (⟨true, none, [⟨"A", [], [], true, none⟩]⟩ : Gallery) =
        (⟨true, none, [⟨"A", [], [], true, none⟩]⟩ : Gallery) ∧
    ∀ e ∈ [Event.logRootUpToDate true, Event.logAlbumUpToDate "A" true],
      e.isMutationOrCall = false :=
  dry_run_no_mutation ⟨[".jpg"], 300, 300, true⟩ 10 ⟨true, none, [⟨"A", [], [], true, none⟩]⟩
    ⟨true, none, [⟨"A", [], [], true, none⟩]⟩
    [Event.logRootUpToDate true, Event.logAlbumUpToDate "A" true] rfl (by decide)

theorem imageFilesUnsorted_cons (ext : String) (rest : List String) (a : Album) :
    imageFilesUnsorted (ext :: rest) a =
      a.files.filter (fun f => pyLower (pySuffix f.name) == ext) ++
        imageFilesUnsorted rest a := rfl

theorem mem_imageFilesUnsorted {exts : List String} {a : Album} {f : SrcFile}
    (h : f ∈ imageFilesUnsorted exts a) :
    f ∈ a.files ∧ pyLower (pySuffix f.name) ∈ exts := by
  induction exts with
  | nil => cases h
  | cons e rest ih =>
    rw [imageFilesUnsorted_cons] at h
    rcases List.mem_append.mp h with h | h
    · rcases List.mem_filter.mp h with ⟨h1, h2⟩
      exact ⟨h1, by simp at h2; simp [h2]⟩
    · rcases ih h with ⟨h1, h2⟩
      exact ⟨h1, List.mem_cons_of_mem _ h2⟩

theorem imageFilesUnsorted_names_nodup (exts : List String) (a : Album)
    (hext : exts.Nodup) (hfiles : (a.files.map SrcFile.name).Nodup) :
    ((imageFilesUnsorted exts a).map SrcFile.name).Nodup := by
  induction exts with
  | nil => simp [imageFilesUnsorted]
  | cons e rest ih =>
    rw [imageFilesUnsorted_cons, List.map_append]
    rcases List.nodup_cons.mp hext with ⟨he, hrest⟩
    refine List.nodup_append.mpr ⟨?_, ih hrest, ?_⟩
    · exact hfiles.sublist ((List.filter_sublist a.files).map SrcFile.name)
    · intro n hn1 hn2
      rcases List.mem_map.mp hn1 with ⟨f, hf, rfl⟩
      rcases List.mem_map.mp hn2 with ⟨g, hg, hng⟩
      rcases List.mem_filter.mp hf with ⟨hfa, hfe⟩
      rcases mem_imageFilesUnsorted hg with ⟨hga, hge⟩
      have hfg : f = g := List.inj_on_of_nodup_map hfiles hfa hga hng.symm
      subst hfg
      have hfeq : pyLower (pySuffix f.name) = e := by simpa using hfe
      rw [hfeq] at hge
      exact he hge

theorem insertByName_perm (f : SrcFile) (l : List SrcFile) :
    (insertByName f l).Perm (f :: l) := by
  induction l with
  | nil => exact List.Perm.refl _
  | cons g rest ih =>
    unfold insertByName
    by_cases hle : strLe f.name g.name
    · rw [if_pos hle]
    · rw [if_neg hle]
      exact (ih.cons g).trans (List.Perm.swap f g rest)

theorem sortByName_perm (l : List SrcFile) : (sortByName l).Perm l := by
  induction l with
  | nil => exact List.Perm.refl _
  | cons f rest ih =>
    exact (insertByName_perm f (sortByName rest)).trans (ih.cons f)

theorem getImageInfo_name (f : SrcFile) :
    (getImageInfo f).get "name" = some (Json.jstr f.name) := by
  simp [getImageInfo, Json.jobjOf, Json.get]

theorem lastAssoc_mem {l : List (Json × Json)} {k v : Json}
    (h : lastAssoc l k = some v) : (k, v) ∈ l := by
  unfold lastAssoc at h
  cases hf : l.reverse.find? (fun pr => pr.1 == k) with
  | none => rw [hf] at h; cases h
  | some pr =>
    rw [hf] at h
    obtain rfl : pr.2 = v := Option.some.inj h
    have hmem : pr ∈ l.reverse := List.mem_of_find?_eq_some hf
    have hk : pr.1 = k := by
      have hkey := List.find?_some hf
      simpa using hkey
    cases pr with
    | mk x y =>
      cases hk
      exact List.mem_reverse.mp hmem

theorem imagesDict_inv : ∀ (j : Json) (l : List (Json × Json)),
    imagesDict j = some l → ∀ pr ∈ l, pr.2.get "name" = some pr.1 := by
  intro j
  induction j with
  | jarrNil =>
    intro l h pr hpr
    cases Option.some.inj h
    cases hpr
  | jarrCons hd tl ih1 ih2 =>
    intro l h pr hpr
    unfold imagesDict at h
    cases hn : hd.get "name" with
    | none => rw [hn] at h; simp at h
    | some n =>
      rw [hn] at h
      simp only [Option.bind_eq_bind, Option.some_bind] at h
      by_cases hh : n.hashable
      · rw [if_pos hh] at h
        cases hd2 : imagesDict tl with
        | none => rw [hd2] at h; simp at h
        | some d =>
          rw [hd2] at h
          simp only [Option.bind_eq_bind, Option.some_bind, Option.some.injEq] at h
          subst h
          rcases List.mem_cons.mp hpr with hpr | hpr
          · subst hpr; exact hn
          · exact ih2 d hd2 pr hpr
      · rw [if_neg hh] at h; cases h
  | jnull => intro l h; simp [imagesDict] at h
  | jbool b => intro l h; simp [imagesDict] at h
  | jnat n => intro l h; simp [imagesDict] at h
  | jstr s => intro l h; simp [imagesDict] at h
  | jobjNil => intro l h; simp [imagesDict] at h
  | jobjCons k v t ih1 ih2 => intro l h; simp [imagesDict] at h

theorem buildExistingImages_inv {idx : Option Json} {l : List (Json × Json)}
    (h : buildExistingImages idx = some l) :
    ∀ pr ∈ l, pr.2.get "name" = some pr.1 := by
  cases idx with
  | none =>
    cases Option.some.inj h
    intro pr hpr; cases hpr
  | some j =>
    simp only [buildExistingImages] at h
    by_cases ht : j.truthy
    · rw [if_pos ht] at h
      by_cases ho : j.isObj
      · rw [if_pos ho] at h
        cases hg : j.get "images" with
        | none => rw [hg] at h; exact imagesDict_inv Json.jarrNil l h
        | some imgs => rw [hg] at h; exact imagesDict_inv imgs l h
      · rw [if_neg ho] at h; cases h
    · rw [if_neg ht] at h
      cases Option.some.inj h
      intro pr hpr; cases hpr

theorem reconcileImage_name (existing : List (Json × Json)) (f : SrcFile)
    (hinv : ∀ pr ∈ existing, pr.2.get "name" = some pr.1) :
    (reconcileImage existing f).get "name" = some (Json.jstr f.name) := by
  unfold reconcileImage
  cases hl : lastAssoc existing (Json.jstr f.name) with
  | none => exact getImageInfo_name f
  | some e =>
    show (if e.truthy = true ∧ e.get "hash" = some (Json.jstr f.hash) then e
      else getImageInfo f).get "name" = some (Json.jstr f.name)
    by_cases hc : e.truthy = true ∧ e.get "hash" = some (Json.jstr f.hash)
    · rw [if_pos hc]
      exact hinv _ (lastAssoc_mem hl)
    · rw [if_neg hc]
      exact getImageInfo_name f

theorem processAlbumLoop_names_sublist (p : PCfg) (now : Nat) (an : String)
    (existing : List (Json × Json))
    (hinv : ∀ pr ∈ existing, pr.2.get "name" = some pr.1) :
    ∀ (files : List SrcFile) (thumbs : List Thumb),
      (imageNames (processAlbumLoop p now an existing files thumbs).1).Sublist
        (files.map (fun f => some (Json.jstr f.name))) := by
  intro files
  induction files with
  | nil => intro thumbs; simp [processAlbumLoop, imageNames]
  | cons f rest ih =>
    intro thumbs
    rw [processAlbumLoop_cons]
    by_cases hv : isValidImage p.extensions f
    · rw [if_pos hv]
      by_cases hok : (createThumbnail p now an thumbs f).1 = true
      · rw [if_pos hok]
        show (imageNames (reconcileImage existing f ::
          (processAlbumLoop p now an existing rest (createThumbnail p now an thumbs f).2.1).1)).Sublist _
        rw [show imageNames (reconcileImage existing f ::
            (processAlbumLoop p now an existing rest (createThumbnail p now an thumbs f).2.1).1) =
          (reconcileImage existing f).get "name" ::
            imageNames (processAlbumLoop p now an existing rest
              (createThumbnail p now an thumbs f).2.1).1 from rfl]
        rw [reconcileImage_name existing f hinv, List.map_cons]
        exact (ih _).cons₂ _
      · rw [if_neg hok]
        show (imageNames ([] ++
          (processAlbumLoop p now an existing rest (createThumbnail p now an thumbs f).2.1).1)).Sublist _
        rw [List.nil_append, List.map_cons]
        exact (ih _).cons _
    · rw [if_neg hv]
      rw [List.map_cons]
      exact (ih thumbs).cons _

/-- C10 (amended) — Uniqueness of manifest entries: when the normalised
extension list has no duplicates and the album directory's file names are
distinct, each filename appears at most once in the produced album
manifest's images sequence. -/
theorem manifest_image_names_unique (p : PCfg) (now : Nat) (a : Album)
    (hext : p.extensions.Nodup)
    (hfiles : (a.files.map SrcFile.name).Nodup) :
    (imageNames (newAlbumImages p now a)).Nodup := by
  unfold newAlbumImages
  cases hb : buildExistingImages (readExistingIndex a.manifest) with
  | none => simp [imageNames]
  | some existing =>
    have hinv := buildExistingImages_inv hb
    have hnames : ((sortedImageFiles p.extensions a).map SrcFile.name).Nodup := by
      have hperm := (sortByName_perm (imageFilesUnsorted p.extensions a)).map SrcFile.name
      exact hperm.nodup_iff.mpr (imageFilesUnsorted_names_nodup p.extensions a hext hfiles)
    have hmapped : ((sortedImageFiles p.extensions a).map
        (fun f => some (Json.jstr f.name))).Nodup := by
      rw [show (fun f : SrcFile => some (Json.jstr f.name)) =
        ((fun s => some (Json.jstr s)) ∘ SrcFile.name) from rfl, ← List.map_map]
      exact hnames.map (fun s t hst => by simpa using hst)
    exact hmapped.sublist
      (processAlbumLoop_names_sublist p now a.name existing hinv _ a.thumbs)

/-- C10 (counterexample) — the claim that each filename appears at most
once in the produced images sequence "for every configured extension list
(including lists that normalize to duplicate entries)" fails: with
extensions `.jpg` and `JPG` (both normalising to `.jpg`) a single file
`a.jpg` yields two identical manifest entries. -/
theorem duplicate_extension_duplicates_entry :
    imageNames (newAlbumImages (mkPCfg ⟨[".jpg", "JPG"], 300, 300, false⟩) 10
      ⟨"A", [⟨"a.jpg", 5, 100, 640, 480, "h1", true, true⟩], [], true, none⟩) =
      [some (Json.jstr "a.jpg"), some (Json.jstr "a.jpg")] ∧
    ¬ (imageNames (newAlbumImages (mkPCfg ⟨[".jpg", "JPG"], 300, 300, false⟩) 10
      ⟨"A", [⟨"a.jpg", 5, 100, 640, 480, "h1", true, true⟩], [], true, none⟩)).Nodup := by
  exact ⟨by decide, by decide⟩

/-- Witness for `manifest_image_names_unique` at the default-like
configuration. -/
theorem manifest_image_names_unique_witness :
    (imageNames (newAlbumImages ⟨[".jpg"], 300, 300, false⟩ 10
      ⟨"A", [⟨"a.jpg", 5, 100, 640, 480, "h1", true, true⟩], [], true, none⟩)).Nodup :=
  manifest_image_names_unique ⟨[".jpg"], 300, 300, false⟩ 10
    ⟨"A", [⟨"a.jpg", 5, 100, 640, 480, "h1", true, true⟩], [], true, none⟩
    (by decide) (by decide)

theorem findThumbIn_replaceThumb (thumbs : List Thumb) (t : Thumb) (n : String) :
    findThumbIn (replaceThumb thumbs t) n =
      if n = t.name then some t else findThumbIn thumbs n := by
  induction thumbs with
  | nil =>
    by_cases hn : n = t.name
    · simp [replaceThumb, findThumbIn, hn]
    · simp [replaceThumb, findThumbIn, hn, Ne.symm hn]
  | cons u rest ih =>
    by_cases hu : u.name = t.name
    · rw [show replaceThumb (u :: rest) t = replaceThumb rest t from by
        simp [replaceThumb, List.filter_cons, hu]]
      rw [ih]
      by_cases hn : n = t.name
      · simp [hn]
      · rw [if_neg hn, if_neg hn]
        have hun : (u.name == n) = false := by
          simp only [beq_eq_false_iff_ne, ne_eq]
          intro hc
          exact hn (by rw [← hc, hu])
        show findThumbIn rest n = findThumbIn (u :: rest) n
        simp [findThumbIn, List.find?_cons, hun]
    · rw [show replaceThumb (u :: rest) t = u :: replaceThumb rest t from by
        simp [replaceThumb, List.filter_cons, hu]]
      by_cases hn : n = t.name
      · rw [if_pos hn]
        have hun : (u.name == n) = false := by
          simp only [beq_eq_false_iff_ne, ne_eq]
          intro hc
          exact hu (by rw [hc, hn])
        have h1 : findThumbIn (u :: replaceThumb rest t) n =
            findThumbIn (replaceThumb rest t) n := by
          simp [findThumbIn, List.find?_cons, hun]
        rw [h1, ih, if_pos hn]
      · rw [if_neg hn]
        by_cases hun : (u.name == n) = true
        · have h1 : findThumbIn (u :: replaceThumb rest t) n = some u := by
            simp [findThumbIn, List.find?_cons, hun]
          have h2 : findThumbIn (u :: rest) n = some u := by
            simp [findThumbIn, List.find?_cons, hun]
          rw [h1, h2]
        · have h1 : findThumbIn (u :: replaceThumb rest t) n =
              findThumbIn (replaceThumb rest t) n := by
            simp [findThumbIn, List.find?_cons, hun]
          have h2 : findThumbIn (u :: rest) n = findThumbIn rest n := by
            simp [findThumbIn, List.find?_cons, hun]
          rw [h1, h2, ih, if_neg hn]

theorem Json.truthy_of_get_some {e : Json} {k : String} {v : Json}
    (h : e.get k = some v) : e.truthy = true := by
  cases e <;> simp_all [Json.get, Json.truthy]

theorem getImageInfo_hash (f : SrcFile) :
    (getImageInfo f).get "hash" = some (Json.jstr f.hash) := by
  simp [getImageInfo, Json.jobjOf, Json.get]

theorem reconcileImage_hash (existing : List (Json × Json)) (f : SrcFile) :
    (reconcileImage existing f).get "hash" = some (Json.jstr f.hash) := by
  unfold reconcileImage
  cases hl : lastAssoc existing (Json.jstr f.name) with
  | none => exact getImageInfo_hash f
  | some e =>
    show (if e.truthy = true ∧ e.get "hash" = some (Json.jstr f.hash) then e
      else getImageInfo f).get "hash" = some (Json.jstr f.hash)
    by_cases hc : e.truthy = true ∧ e.get "hash" = some (Json.jstr f.hash)
    · rw [if_pos hc]
      exact hc.2
    · rw [if_neg hc]
      exact getImageInfo_hash f

theorem reconcileImage_eq_spec (existing : List (Json × Json)) (f : SrcFile)
    (hinv : ∀ pr ∈ existing, pr.2.get "name" = some pr.1) :
    reconcileImage existing f = specReuseEntry existing f := by
  unfold reconcileImage specReuseEntry
  cases hl : lastAssoc existing (Json.jstr f.name) with
  | none => rfl
  | some e =>
    show (if e.truthy = true ∧ e.get "hash" = some (Json.jstr f.hash) then e
        else getImageInfo f) =
      (if e.get "hash" = some (Json.jstr f.hash) then e else getImageInfo f)
    have htr : e.truthy = true :=
      Json.truthy_of_get_some (hinv _ (lastAssoc_mem hl))
    simp [htr]

theorem processAlbumLoop_images_eq (p : PCfg) (now : Nat) (an : String)
    (existing : List (Json × Json)) :
    ∀ (files : List SrcFile) (thumbs : List Thumb),
      (∀ f ∈ files, ∀ g ∈ files, f.name = g.name → f = g) →
      (processAlbumLoop p now an existing files thumbs).1 =
        (files.filter (imageOk p thumbs)).map (reconcileImage existing) := by
  intro files
  induction files with
  | nil => intro thumbs _; simp [processAlbumLoop]
  | cons f rest ih =>
    intro thumbs hsame
    have hsrest : ∀ a ∈ rest, ∀ b ∈ rest, a.name = b.name → a = b := fun a ha b hb =>
      hsame a (List.mem_cons_of_mem _ ha) b (List.mem_cons_of_mem _ hb)
    rw [processAlbumLoop_cons, List.filter_cons]
    by_cases hv : isValidImage p.extensions f
    · rw [if_pos hv]
      by_cases hdry : p.dryRun = true
      · have hct : createThumbnail p now an thumbs f =
            (true, thumbs, [.logWouldCreateThumb an f.name]) := by
          simp [createThumbnail, hdry]
        have hok : imageOk p thumbs f = true := by simp [imageOk, hv, hdry]
        rw [hct, hok]
        show [reconcileImage existing f] ++ (processAlbumLoop p now an existing rest thumbs).1 =
          reconcileImage existing f :: (rest.filter (imageOk p thumbs)).map (reconcileImage existing)
        rw [ih thumbs hsrest]
        rfl
      · rw [Bool.not_eq_true] at hdry
        by_cases hst : shouldUpdateThumbnail p.thumbW p.thumbH f (findThumbIn thumbs f.name) = true
        · by_cases hcv : f.convertOk = true
          · have hct : createThumbnail p now an thumbs f =
                (true, replaceThumb thumbs (mkFreshThumb p now f.name),
                  [.ranConvert an f.name true, .wroteThumb an f.name]) := by
              simp [createThumbnail, hdry, hst, hcv]
            have hok : imageOk p thumbs f = true := by simp [imageOk, hv, hcv]
            rw [hct, hok]
            show [reconcileImage existing f] ++
                (processAlbumLoop p now an existing rest
                  (replaceThumb thumbs (mkFreshThumb p now f.name))).1 =
              reconcileImage existing f ::
                (rest.filter (imageOk p thumbs)).map (reconcileImage existing)
            rw [ih _ hsrest]
            have hfilter : rest.filter (imageOk p (replaceThumb thumbs (mkFreshThumb p now f.name))) =
                rest.filter (imageOk p thumbs) := by
              apply List.filter_congr
              intro g hg
              by_cases hgn : g.name = f.name
              · have hgf : g = f :=
                  hsame g (List.mem_cons_of_mem _ hg) f (List.mem_cons_self f rest) hgn
                subst hgf
                simp [imageOk, hcv]
              · unfold imageOk
                rw [findThumbIn_replaceThumb,
                  if_neg (by simpa [mkFreshThumb] using hgn)]
            rw [hfilter]
            rfl
          · rw [Bool.not_eq_true] at hcv
            have hct : createThumbnail p now an thumbs f =
                (false, thumbs, [.ranConvert an f.name false]) := by
              simp [createThumbnail, hdry, hst, hcv]
            have hok : imageOk p thumbs f = false := by
              simp [imageOk, hv, hdry, hst, hcv]
            rw [hct, hok]
            show [] ++ (processAlbumLoop p now an existing rest thumbs).1 =
              (rest.filter (imageOk p thumbs)).map (reconcileImage existing)
            rw [List.nil_append, ih thumbs hsrest]
        · rw [Bool.not_eq_true] at hst
          have hct : createThumbnail p now an thumbs f =
              (true, thumbs, [.logThumbUpToDate an f.name]) := by
            simp [createThumbnail, hdry, hst]
          have hok : imageOk p thumbs f = true := by simp [imageOk, hv, hst]
          rw [hct, hok]
          show [reconcileImage existing f] ++ (processAlbumLoop p now an existing rest thumbs).1 =
            reconcileImage existing f :: (rest.filter (imageOk p thumbs)).map (reconcileImage existing)
          rw [ih thumbs hsrest]
          rfl
    · rw [if_neg hv]
      have hok : imageOk p thumbs f = false := by simp [imageOk, hv]
      rw [hok]
      show (processAlbumLoop p now an existing rest thumbs).1 =
        (rest.filter (imageOk p thumbs)).map (reconcileImage existing)
      exact ih thumbs hsrest

theorem mem_sortedImageFiles {exts : List String} {a : Album} {f : SrcFile}
    (h : f ∈ sortedImageFiles exts a) : f ∈ a.files := by
  unfold sortedImageFiles at h
  have hm := (sortByName_perm (imageFilesUnsorted exts a)).mem_iff.mp h
  exact (mem_imageFilesUnsorted hm).1

theorem albumWriteDecision_isSome {idx : Option Json} {ex : List (Json × Json)}
    (hb : buildExistingImages idx = some ex) (dry : Bool) (imgs : List Json) :
    (albumWriteDecision dry idx imgs).isSome = true := by
  unfold albumWriteDecision
  by_cases hd : dry = true
  · simp [hd]
  · rw [Bool.not_eq_true] at hd
    cases idx with
    | none => simp [hd]
    | some j =>
      simp only [buildExistingImages] at hb
      by_cases ht : j.truthy = true
      · rw [if_pos ht] at hb
        by_cases ho : j.isObj = true
        · simp [hd, ht, ho]
        · rw [if_neg ho] at hb; cases hb
      · simp [hd, ht]

/-- C2 — Manifest reuse by hash: the images sequence assembled for an
album consists, for each processed image in order, of the prior
manifest's name-indexed entry reused verbatim whenever that entry's
stored `hash` equals the image's current content hash — no field is
recomputed and any extra historical fields of the entry are preserved,
since the whole prior JSON object is appended — and of freshly computed
metadata (name, width, height, size, modified, thumbnail path, hash)
otherwise. -/
theorem manifest_reuse_by_hash (p : PCfg) (now : Nat) (a : Album)
    (existing : List (Json × Json))
    (hb : buildExistingImages (readExistingIndex a.manifest) = some existing)
    (hsame : ∀ f ∈ a.files, ∀ g ∈ a.files, f.name = g.name → f = g) :
    newAlbumImages p now a =
      ((sortedImageFiles p.extensions a).filter (imageOk p a.thumbs)).map
        (specReuseEntry existing) := by
  have hs : ∀ f ∈ sortedImageFiles p.extensions a, ∀ g ∈ sortedImageFiles p.extensions a,
      f.name = g.name → f = g := fun f hf g hg =>
    hsame f (mem_sortedImageFiles hf) g (mem_sortedImageFiles hg)
  simp only [newAlbumImages, hb]
  rw [processAlbumLoop_images_eq p now a.name existing _ a.thumbs hs]
  exact List.map_congr_left
    (fun f _ => reconcileImage_eq_spec existing f (buildExistingImages_inv hb))

/-- Witness for `manifest_reuse_by_hash`: a prior entry with a matching
hash and an extra historical field `legacy` is appended verbatim. -/
theorem manifest_reuse_by_hash_witness :
    newAlbumImages ⟨[".jpg"], 300, 300, false⟩ 10
      ⟨"A", [⟨"a.jpg", 5, 100, 640, 480, "h1", true, true⟩], [], true,
        some (MDisk.valid (Json.jobjCons "images"
          (Json.jarrCons (Json.jobjCons "name" (Json.jstr "a.jpg")
            (Json.jobjCons "hash" (Json.jstr "h1")
              (Json.jobjCons "legacy" (Json.jstr "x") Json.jobjNil))) Json.jarrNil)
          Json.jobjNil))⟩ =
      [Json.jobjCons "name" (Json.jstr "a.jpg")
        (Json.jobjCons "hash" (Json.jstr "h1")
          (Json.jobjCons "legacy" (Json.jstr "x") Json.jobjNil))] :=
  (manifest_reuse_by_hash ⟨[".jpg"], 300, 300, false⟩ 10
    ⟨"A", [⟨"a.jpg", 5, 100, 640, 480, "h1", true, true⟩], [], true,
      some (MDisk.valid (Json.jobjCons "images"
        (Json.jarrCons (Json.jobjCons "name" (Json.jstr "a.jpg")
          (Json.jobjCons "hash" (Json.jstr "h1")
            (Json.jobjCons "legacy" (Json.jstr "x") Json.jobjNil))) Json.jarrNil)
        Json.jobjNil))⟩
    [(Json.jstr "a.jpg", Json.jobjCons "name" (Json.jstr "a.jpg")
      (Json.jobjCons "hash" (Json.jstr "h1")
        (Json.jobjCons "legacy" (Json.jstr "x") Json.jobjNil)))]
    (by decide) (by decide)).trans (by decide)

/-- C6 — Per-image recoverable failure: outside dry-run, an image that
fails validation or whose stale thumbnail's regeneration fails is
excluded from the album manifest for the run, while the remaining images
are still processed — the images sequence is exactly the reconciled
entries of the files that validate and whose thumbnail is fresh or whose
convert succeeds — and the album's processing completes without
aborting. -/
theorem per_image_failure_recoverable (p : PCfg) (now : Nat) (a : Album)
    (existing : List (Json × Json))
    (hb : buildExistingImages (readExistingIndex a.manifest) = some existing)
    (hdry : p.dryRun = false)
    (hsame : ∀ f ∈ a.files, ∀ g ∈ a.files, f.name = g.name → f = g) :
    newAlbumImages p now a =
      ((sortedImageFiles p.extensions a).filter
        (fun f => isValidImage p.extensions f &&
          (!(shouldUpdateThumbnail p.thumbW p.thumbH f (findThumbIn a.thumbs f.name)) ||
            f.convertOk))).map (reconcileImage existing) ∧
    (processAlbum p now a).isSome = true := by
  have hs : ∀ f ∈ sortedImageFiles p.extensions a, ∀ g ∈ sortedImageFiles p.extensions a,
      f.name = g.name → f = g := fun f hf g hg =>
    hsame f (mem_sortedImageFiles hf) g (mem_sortedImageFiles hg)
  constructor
  · simp only [newAlbumImages, hb]
    rw [processAlbumLoop_images_eq p now a.name existing _ a.thumbs hs]
    congr 1
    apply List.filter_congr
    intro f _
    simp [imageOk, hdry]
  · simp only [processAlbum, hb, Option.bind_eq_bind, Option.some_bind]
    have hws := albumWriteDecision_isSome hb p.dryRun
      (processAlbumLoop p now a.name existing (sortedImageFiles p.extensions a) a.thumbs).1
    obtain ⟨wr, hwr⟩ := Option.isSome_iff_exists.mp hws
    rw [hwr]
    cases wr <;> simp

/-- Witness for `per_image_failure_recoverable`: a corrupt image and an
image whose convert fails are excluded; the valid one is kept. -/
theorem per_image_failure_recoverable_witness :
    newAlbumImages ⟨[".jpg"], 300, 300, false⟩ 10
      ⟨"A", [⟨"a.jpg", 5, 100, 640, 480, "ha", true, true⟩,
             ⟨"b.jpg", 5, 100, 640, 480, "hb", false, true⟩,
             ⟨"c.jpg", 5, 100, 640, 480, "hc", true, false⟩], [], true, none⟩ =
      [getImageInfo ⟨"a.jpg", 5, 100, 640, 480, "ha", true, true⟩] ∧
    (processAlbum ⟨[".jpg"], 300, 300, false⟩ 10
      ⟨"A", [⟨"a.jpg", 5, 100, 640, 480, "ha", true, true⟩,
             ⟨"b.jpg", 5, 100, 640, 480, "hb", false, true⟩,
             ⟨"c.jpg", 5, 100, 640, 480, "hc", true, false⟩], [], true, none⟩).isSome = true :=
  ⟨(per_image_failure_recoverable ⟨[".jpg"], 300, 300, false⟩ 10
      ⟨"A", [⟨"a.jpg", 5, 100, 640, 480, "ha", true, true⟩,
             ⟨"b.jpg", 5, 100, 640, 480, "hb", false, true⟩,
             ⟨"c.jpg", 5, 100, 640, 480, "hc", true, false⟩], [], true, none⟩
      [] (by decide) rfl (by decide)).1.trans (by decide),
   (per_image_failure_recoverable ⟨[".jpg"], 300, 300, false⟩ 10
      ⟨"A", [⟨"a.jpg", 5, 100, 640, 480, "ha", true, true⟩,
             ⟨"b.jpg", 5, 100, 640, 480, "hb", false, true⟩,
             ⟨"c.jpg", 5, 100, 640, 480, "hc", true, false⟩], [], true, none⟩
      [] (by decide) rfl (by decide)).2⟩

theorem shouldUpdate_mkFresh (p : PCfg) (now : Nat) (g : SrcFile)
    (hmt : g.mtime ≤ now) :
    shouldUpdateThumbnail p.thumbW p.thumbH g (some (mkFreshThumb p now g.name)) = false := by
  simp [shouldUpdateThumbnail, mkFreshThumb]
  omega

theorem processAlbumLoop_thumbs_frame (p : PCfg) (now : Nat) (an : String)
    (existing : List (Json × Json)) :
    ∀ (files : List SrcFile) (thumbs : List Thumb) (n : String),
      findThumbIn (processAlbumLoop p now an existing files thumbs).2.1 n =
        findThumbIn thumbs n ∨
      (findThumbIn (processAlbumLoop p now an existing files thumbs).2.1 n =
          some (mkFreshThumb p now n) ∧
        ∃ g ∈ files, g.name = n ∧ isValidImage p.extensions g = true ∧
          g.convertOk = true ∧ p.dryRun = false) := by
  intro files
  induction files with
  | nil => intro thumbs n; exact Or.inl rfl
  | cons f rest ih =>
    intro thumbs n
    rw [processAlbumLoop_cons]
    by_cases hv : isValidImage p.extensions f
    · rw [if_pos hv]
      by_cases hdry : p.dryRun = true
      · rw [show createThumbnail p now an thumbs f =
            (true, thumbs, [.logWouldCreateThumb an f.name]) from by
          simp [createThumbnail, hdry]]
        rcases ih thumbs n with h | ⟨h1, g, hg, hrest⟩
        · exact Or.inl h
        · exact Or.inr ⟨h1, g, List.mem_cons_of_mem _ hg, hrest⟩
      · rw [Bool.not_eq_true] at hdry
        by_cases hst : shouldUpdateThumbnail p.thumbW p.thumbH f (findThumbIn thumbs f.name) = true
        · by_cases hcv : f.convertOk = true
          · rw [show createThumbnail p now an thumbs f =
                (true, replaceThumb thumbs (mkFreshThumb p now f.name),
                  [.ranConvert an f.name true, .wroteThumb an f.name]) from by
              simp [createThumbnail, hdry, hst, hcv]]
            rcases ih (replaceThumb thumbs (mkFreshThumb p now f.name)) n with h | ⟨h1, g, hg, hrest⟩
            · rw [h, findThumbIn_replaceThumb]
              by_cases hn : n = f.name
              · subst hn
                refine Or.inr ⟨?_, f, List.mem_cons_self f rest, rfl, hv, hcv, hdry⟩
                rw [if_pos (by simp [mkFreshThumb])]
              · rw [if_neg (by simpa [mkFreshThumb] using hn)]
                exact Or.inl rfl
            · exact Or.inr ⟨h1, g, List.mem_cons_of_mem _ hg, hrest⟩
          · rw [Bool.not_eq_true] at hcv
            rw [show createThumbnail p now an thumbs f =
                (false, thumbs, [.ranConvert an f.name false]) from by
              simp [createThumbnail, hdry, hst, hcv]]
            rcases ih thumbs n with h | ⟨h1, g, hg, hrest⟩
            · exact Or.inl h
            · exact Or.inr ⟨h1, g, List.mem_cons_of_mem _ hg, hrest⟩
        · rw [Bool.not_eq_true] at hst
          rw [show createThumbnail p now an thumbs f =
              (true, thumbs, [.logThumbUpToDate an f.name]) from by
            simp [createThumbnail, hdry, hst]]
          rcases ih thumbs n with h | ⟨h1, g, hg, hrest⟩
          · exact Or.inl h
          · exact Or.inr ⟨h1, g, List.mem_cons_of_mem _ hg, hrest⟩
    · rw [if_neg hv]
      rcases ih thumbs n with h | ⟨h1, g, hg, hrest⟩
      · exact Or.inl h
      · exact Or.inr ⟨h1, g, List.mem_cons_of_mem _ hg, hrest⟩

theorem imageOk_preserved (p : PCfg) (now : Nat) (an : String)
    (existing : List (Json × Json)) (files : List SrcFile) (thumbs : List Thumb)
    (f : SrcFile) (hsame : ∀ g ∈ files, g.name = f.name → g = f) :
    imageOk p (processAlbumLoop p now an existing files thumbs).2.1 f =
      imageOk p thumbs f := by
  rcases processAlbumLoop_thumbs_frame p now an existing files thumbs f.name with
    h | ⟨h1, g, hg, hgn, hgv, hgc, _⟩
  · simp [imageOk, h]
  · have hgf : g = f := hsame g hg hgn
    subst hgf
    simp [imageOk, h1, hgv, hgc, shouldUpdateThumbnail]

theorem processAlbumLoop_settles (p : PCfg) (now : Nat) (an : String)
    (existing : List (Json × Json)) (hdry : p.dryRun = false) :
    ∀ (files : List SrcFile) (thumbs : List Thumb),
      (∀ f ∈ files, f.mtime ≤ now) →
      ∀ f ∈ files, isValidImage p.extensions f = true →
        shouldUpdateThumbnail p.thumbW p.thumbH f
          (findThumbIn (processAlbumLoop p now an existing files thumbs).2.1 f.name) = false ∨
        f.convertOk = false := by
  intro files
  induction files with
  | nil => intro thumbs _ f hf; cases hf
  | cons g rest ih =>
    intro thumbs hmt f hf hfv
    have hmtrest : ∀ x ∈ rest, x.mtime ≤ now := fun x hx => hmt x (List.mem_cons_of_mem _ hx)
    rw [processAlbumLoop_cons]
    rcases List.mem_cons.mp hf with hfg | hfrest
    · subst hfg
      rw [if_pos hfv]
      by_cases hst : shouldUpdateThumbnail p.thumbW p.thumbH f (findThumbIn thumbs f.name) = true
      · by_cases hcv : f.convertOk = true
        · rw [show createThumbnail p now an thumbs f =
              (true, replaceThumb thumbs (mkFreshThumb p now f.name),
                [.ranConvert an f.name true, .wroteThumb an f.name]) from by
            simp [createThumbnail, hdry, hst, hcv]]
          rcases processAlbumLoop_thumbs_frame p now an existing rest
              (replaceThumb thumbs (mkFreshThumb p now f.name)) f.name with h | ⟨h1, _⟩
          · rw [h, findThumbIn_replaceThumb, if_pos (by simp [mkFreshThumb])]
            exact Or.inl (shouldUpdate_mkFresh p now f (hmt f (List.mem_cons_self f rest)))
          · rw [h1]
            exact Or.inl (shouldUpdate_mkFresh p now f (hmt f (List.mem_cons_self f rest)))
        · rw [Bool.not_eq_true] at hcv
          exact Or.inr hcv
      · rw [Bool.not_eq_true] at hst
        rw [show createThumbnail p now an thumbs f =
            (true, thumbs, [.logThumbUpToDate an f.name]) from by
          simp [createThumbnail, hdry, hst]]
        rcases processAlbumLoop_thumbs_frame p now an existing rest thumbs f.name with
          h | ⟨h1, _⟩
        · rw [h]
          exact Or.inl hst
        · rw [h1]
          exact Or.inl (shouldUpdate_mkFresh p now f (hmt f (List.mem_cons_self f rest)))
    · by_cases hv : isValidImage p.extensions g
      · rw [if_pos hv]
        exact ih _ hmtrest f hfrest hfv
      · rw [if_neg hv]
        exact ih _ hmtrest f hfrest hfv

theorem processAlbumLoop_noop (p : PCfg) (now2 : Nat) (an : String)
    (existing : List (Json × Json)) (hdry : p.dryRun = false) :
    ∀ (files : List SrcFile) (thumbs : List Thumb),
      (∀ f ∈ files, isValidImage p.extensions f = true →
        shouldUpdateThumbnail p.thumbW p.thumbH f (findThumbIn thumbs f.name) = false ∨
        f.convertOk = false) →
      (processAlbumLoop p now2 an existing files thumbs).2.1 = thumbs ∧
      ∀ e ∈ (processAlbumLoop p now2 an existing files thumbs).2.2, e.isFsWrite = false := by
  intro files
  induction files with
  | nil => intro thumbs _; exact ⟨rfl, by simp [processAlbumLoop]⟩
  | cons f rest ih =>
    intro thumbs hset
    have hsrest : ∀ x ∈ rest, isValidImage p.extensions x = true →
        shouldUpdateThumbnail p.thumbW p.thumbH x (findThumbIn thumbs x.name) = false ∨
        x.convertOk = false := fun x hx => hset x (List.mem_cons_of_mem _ hx)
    rw [processAlbumLoop_cons]
    by_cases hv : isValidImage p.extensions f
    · rw [if_pos hv]
      rcases hset f (List.mem_cons_self f rest) hv with hfresh | hcfail
      · rw [show createThumbnail p now2 an thumbs f =
            (true, thumbs, [.logThumbUpToDate an f.name]) from by
          simp [createThumbnail, hdry, hfresh]]
        refine ⟨(ih thumbs hsrest).1, ?_⟩
        intro e he
        rcases List.mem_append.mp he with he | he
        · rcases List.mem_singleton.mp he with rfl
          rfl
        · exact (ih thumbs hsrest).2 e he
      · by_cases hst : shouldUpdateThumbnail p.thumbW p.thumbH f (findThumbIn thumbs f.name) = true
        · rw [show createThumbnail p now2 an thumbs f =
              (false, thumbs, [.ranConvert an f.name false]) from by
            simp [createThumbnail, hdry, hst, hcfail]]
          refine ⟨(ih thumbs hsrest).1, ?_⟩
          intro e he
          rcases List.mem_append.mp he with he | he
          · rcases List.mem_singleton.mp he with rfl
            rfl
          · exact (ih thumbs hsrest).2 e he
        · rw [Bool.not_eq_true] at hst
          rw [show createThumbnail p now2 an thumbs f =
              (true, thumbs, [.logThumbUpToDate an f.name]) from by
            simp [createThumbnail, hdry, hst]]
          refine ⟨(ih thumbs hsrest).1, ?_⟩
          intro e he
          rcases List.mem_append.mp he with he | he
          · rcases List.mem_singleton.mp he with rfl
            rfl
          · exact (ih thumbs hsrest).2 e he
    · rw [if_neg hv]
      refine ⟨(ih thumbs hsrest).1, ?_⟩
      intro e he
      rcases List.mem_cons.mp he with he | he
      · subst he; rfl
      · exact (ih thumbs hsrest).2 e he

theorem imagesDict_jarrOf_entries :
    ∀ (I : List Json) (d : List (Json × Json)),
      imagesDict (Json.jarrOf I) = some d → d.map Prod.snd = I := by
  intro I
  induction I with
  | nil => intro d h; cases Option.some.inj h; rfl
  | cons e rest ih =>
    intro d h
    rw [show Json.jarrOf (e :: rest) = Json.jarrCons e (Json.jarrOf rest) from rfl] at h
    unfold imagesDict at h
    cases hn : e.get "name" with
    | none => rw [hn] at h; simp at h
    | some n =>
      rw [hn] at h
      simp only [Option.bind_eq_bind, Option.some_bind] at h
      by_cases hh : n.hashable
      · rw [if_pos hh] at h
        cases hd2 : imagesDict (Json.jarrOf rest) with
        | none => rw [hd2] at h; simp at h
        | some d2 =>
          rw [hd2] at h
          simp only [Option.some_bind, Option.some.injEq] at h
          subst h
          simp [ih d2 hd2]
      · rw [if_neg hh] at h; cases h

theorem imagesDict_jarrOf_isSome :
    ∀ (I : List Json),
      (∀ e ∈ I, ∃ s, e.get "name" = some (Json.jstr s)) →
      ∃ d, imagesDict (Json.jarrOf I) = some d := by
  intro I
  induction I with
  | nil => intro _; exact ⟨[], rfl⟩
  | cons e rest ih =>
    intro h
    obtain ⟨s, hs⟩ := h e (List.mem_cons_self e rest)
    obtain ⟨d2, hd2⟩ := ih (fun x hx => h x (List.mem_cons_of_mem _ hx))
    refine ⟨(Json.jstr s, e) :: d2, ?_⟩
    show imagesDict (Json.jarrCons e (Json.jarrOf rest)) = _
    unfold imagesDict
    rw [hs]
    simp only [Option.bind_eq_bind, Option.some_bind]
    rw [if_pos (show (Json.jstr s).hashable = true from rfl)]
    rw [hd2]
    rfl

theorem lastAssoc_eq_some_of_unique {d : List (Json × Json)} {k v : Json}
    (hmem : (k, v) ∈ d) (huniq : ∀ pr ∈ d, pr.1 = k → pr.2 = v) :
    lastAssoc d k = some v := by
  unfold lastAssoc
  cases hf : d.reverse.find? (fun pr => pr.1 == k) with
  | none =>
    exfalso
    have hnone := List.find?_eq_none.mp hf (k, v) (List.mem_reverse.mpr hmem)
    simp at hnone
  | some pr =>
    have hmem2 : pr ∈ d := List.mem_reverse.mp (List.mem_of_find?_eq_some hf)
    have hk : pr.1 = k := by
      have hkey := List.find?_some hf
      simpa using hkey
    show some pr.2 = some v
    rw [huniq pr hmem2 hk]

theorem reconcileImage_of_entry {d : List (Json × Json)} {f : SrcFile} {e : Json}
    (hla : lastAssoc d (Json.jstr f.name) = some e)
    (htr : e.truthy = true)
    (hhash : e.get "hash" = some (Json.jstr f.hash)) :
    reconcileImage d f = e := by
  unfold reconcileImage
  rw [hla]
  show (if e.truthy = true ∧ e.get "hash" = some (Json.jstr f.hash) then e
    else getImageInfo f) = e
  rw [if_pos ⟨htr, hhash⟩]

theorem mkAlbumIndex_get_images (an : String) (imgs : List Json) (now : Nat) :
    (mkAlbumIndex an imgs now).get "images" = some (Json.jarrOf imgs) := by
  simp [mkAlbumIndex, Json.jobjOf, Json.get]

theorem albumWriteDecision_false_of_eq {j : Json} {imgs : List Json}
    (ht : j.truthy = true) (ho : j.isObj = true)
    (hg : j.get "images" = some (Json.jarrOf imgs)) :
    albumWriteDecision false (some j) imgs = some false := by
  simp [albumWriteDecision, ht, ho, hg]

theorem buildExistingImages_of_get {j : Json} (ht : j.truthy = true) (ho : j.isObj = true)
    {v : Json} (hg : j.get "images" = some v) :
    buildExistingImages (some j) = imagesDict v := by
  simp [buildExistingImages, ht, ho, hg]

theorem processAlbum_idem (p : PCfg) (now1 now2 : Nat) (a a1 : Album) (ev1 : List Event)
    (hdry : p.dryRun = false)
    (hsame : ∀ f ∈ a.files, ∀ g ∈ a.files, f.name = g.name → f = g)
    (hmt : ∀ f ∈ a.files, f.mtime ≤ now1)
    (h1 : processAlbum p now1 a = some (a1, ev1)) :
    ∃ ev2, processAlbum p now2 a1 = some (a1, ev2) ∧ ∀ e ∈ ev2, e.isFsWrite = false := by
  cases hb : buildExistingImages (readExistingIndex a.manifest) with
  | none => simp [processAlbum, hb] at h1
  | some ex0 =>
    have hinv0 := buildExistingImages_inv hb
    have hs : ∀ f ∈ sortedImageFiles p.extensions a, ∀ g ∈ sortedImageFiles p.extensions a,
        f.name = g.name → f = g := fun f hf g hg =>
      hsame f (mem_sortedImageFiles hf) g (mem_sortedImageFiles hg)
    have hmtS : ∀ f ∈ sortedImageFiles p.extensions a, f.mtime ≤ now1 :=
      fun f hf => hmt f (mem_sortedImageFiles hf)
    simp only [processAlbum, hb, Option.bind_eq_bind, Option.some_bind, hdry] at h1
    cases hd : albumWriteDecision false (readExistingIndex a.manifest)
        (processAlbumLoop p now1 a.name ex0 (sortedImageFiles p.extensions a) a.thumbs).1 with
    | none => rw [hd] at h1; simp at h1
    | some wr =>
      rw [hd] at h1
      simp only [Option.some_bind] at h1
      have hchar1 : (processAlbumLoop p now1 a.name ex0
            (sortedImageFiles p.extensions a) a.thumbs).1 =
          ((sortedImageFiles p.extensions a).filter (imageOk p a.thumbs)).map
            (reconcileImage ex0) :=
        processAlbumLoop_images_eq p now1 a.name ex0 _ a.thumbs hs
      have hset := processAlbumLoop_settles p now1 a.name ex0 hdry
        (sortedImageFiles p.extensions a) a.thumbs hmtS
      have hfeq : (sortedImageFiles p.extensions a).filter (imageOk p
            (processAlbumLoop p now1 a.name ex0 (sortedImageFiles p.extensions a) a.thumbs).2.1) =
          (sortedImageFiles p.extensions a).filter (imageOk p a.thumbs) :=
        List.filter_congr (fun f hf =>
          imageOk_preserved p now1 a.name ex0 _ a.thumbs f (fun g hg hgn => hs g hg f hf hgn))
      cases wr with
      | true =>
        rw [if_pos rfl] at h1
        simp only [Option.some.injEq, Prod.mk.injEq] at h1
        obtain ⟨ha1, hev1⟩ := h1
        have hnames : ∀ e ∈ (processAlbumLoop p now1 a.name ex0
            (sortedImageFiles p.extensions a) a.thumbs).1,
            ∃ s, e.get "name" = some (Json.jstr s) := by
          intro e he
          rw [hchar1] at he
          rcases List.mem_map.mp he with ⟨f, _, rfl⟩
          exact ⟨f.name, reconcileImage_name ex0 f hinv0⟩
        obtain ⟨d1, hd1⟩ := imagesDict_jarrOf_isSome _ hnames
        have hmapd1 := imagesDict_jarrOf_entries _ _ hd1
        have hinv1 := imagesDict_inv _ _ hd1
        have hb2 : buildExistingImages (some (mkAlbumIndex a.name
            (processAlbumLoop p now1 a.name ex0 (sortedImageFiles p.extensions a) a.thumbs).1
            now1)) = some d1 := by
          have hg := mkAlbumIndex_get_images a.name
            (processAlbumLoop p now1 a.name ex0 (sortedImageFiles p.extensions a) a.thumbs).1 now1
          have ht : (mkAlbumIndex a.name
              (processAlbumLoop p now1 a.name ex0 (sortedImageFiles p.extensions a) a.thumbs).1
              now1).truthy = true := rfl
          have ho : (mkAlbumIndex a.name
              (processAlbumLoop p now1 a.name ex0 (sortedImageFiles p.extensions a) a.thumbs).1
              now1).isObj = true := rfl
          rw [buildExistingImages_of_get ht ho hg]
          exact hd1
        have hchar2 : (processAlbumLoop p now2 a.name d1 (sortedImageFiles p.extensions a)
              (processAlbumLoop p now1 a.name ex0 (sortedImageFiles p.extensions a) a.thumbs).2.1).1 =
            ((sortedImageFiles p.extensions a).filter (imageOk p
              (processAlbumLoop p now1 a.name ex0 (sortedImageFiles p.extensions a) a.thumbs).2.1)).map
              (reconcileImage d1) :=
          processAlbumLoop_images_eq p now2 a.name d1 _ _ hs
        have hmapeq : ∀ f ∈ (sortedImageFiles p.extensions a).filter (imageOk p a.thumbs),
            reconcileImage d1 f = reconcileImage ex0 f := by
          intro f hf
          have hfS : f ∈ sortedImageFiles p.extensions a := List.mem_of_mem_filter hf
          have hname_e : (reconcileImage ex0 f).get "name" = some (Json.jstr f.name) :=
            reconcileImage_name ex0 f hinv0
          have hefI : reconcileImage ex0 f ∈ (processAlbumLoop p now1 a.name ex0
              (sortedImageFiles p.extensions a) a.thumbs).1 := by
            rw [hchar1]
            exact List.mem_map_of_mem _ hf
          have hsnd : reconcileImage ex0 f ∈ d1.map Prod.snd := by
            rw [hmapd1]
            exact hefI
          rcases List.mem_map.mp hsnd with ⟨pr, hprd, hpr2⟩
          have hpr1 : pr.1 = Json.jstr f.name := by
            have hx := hinv1 pr hprd
            rw [hpr2, hname_e] at hx
            exact (Option.some.inj hx).symm
          have hmemd : (Json.jstr f.name, reconcileImage ex0 f) ∈ d1 := by
            have hpr : pr = (Json.jstr f.name, reconcileImage ex0 f) := by
              cases pr
              cases hpr1
              cases hpr2
              rfl
            rw [← hpr]
            exact hprd
          have huniq : ∀ pr' ∈ d1, pr'.1 = Json.jstr f.name →
              pr'.2 = reconcileImage ex0 f := by
            intro pr' hpr' hk
            have h2I : pr'.2 ∈ (processAlbumLoop p now1 a.name ex0
                (sortedImageFiles p.extensions a) a.thumbs).1 := by
              rw [← hmapd1]
              exact List.mem_map_of_mem _ hpr'
            rw [hchar1] at h2I
            rcases List.mem_map.mp h2I with ⟨g, hgf, hg2⟩
            have hgname : pr'.2.get "name" = some (Json.jstr g.name) := by
              rw [← hg2]
              exact reconcileImage_name ex0 g hinv0
            have hgn2 : pr'.2.get "name" = some pr'.1 := hinv1 pr' hpr'
            have hgnames : g.name = f.name := by
              have hx := Option.some.inj (hgname.symm.trans hgn2)
              rw [hk] at hx
              exact Json.jstr.inj hx
            have hgf2 : g = f := hs g (List.mem_of_mem_filter hgf) f hfS hgnames
            rw [← hg2, hgf2]
          have hla := lastAssoc_eq_some_of_unique hmemd huniq
          exact reconcileImage_of_entry hla (Json.truthy_of_get_some hname_e)
            (reconcileImage_hash ex0 f)
        have hI2 : (processAlbumLoop p now2 a.name d1 (sortedImageFiles p.extensions a)
              (processAlbumLoop p now1 a.name ex0 (sortedImageFiles p.extensions a) a.thumbs).2.1).1 =
            (processAlbumLoop p now1 a.name ex0 (sortedImageFiles p.extensions a) a.thumbs).1 := by
          rw [hchar2, hfeq, List.map_congr_left hmapeq, ← hchar1]
        have hnoop := processAlbumLoop_noop p now2 a.name d1 hdry
          (sortedImageFiles p.extensions a)
          (processAlbumLoop p now1 a.name ex0 (sortedImageFiles p.extensions a) a.thumbs).2.1 hset
        have hdec2 : albumWriteDecision false (some (mkAlbumIndex a.name
            (processAlbumLoop p now1 a.name ex0 (sortedImageFiles p.extensions a) a.thumbs).1 now1))
            (processAlbumLoop p now2 a.name d1 (sortedImageFiles p.extensions a)
              (processAlbumLoop p now1 a.name ex0 (sortedImageFiles p.extensions a) a.thumbs).2.1).1 =
            some false := by
          rw [hI2]
          exact albumWriteDecision_false_of_eq rfl rfl (mkAlbumIndex_get_images a.name _ now1)
        subst ha1
        refine ⟨(processAlbumLoop p now2 a.name d1 (sortedImageFiles p.extensions a)
            (processAlbumLoop p now1 a.name ex0 (sortedImageFiles p.extensions a) a.thumbs).2.1).2.2 ++
            [.logAlbumUpToDate a.name false], ?_, ?_⟩
        · have hSred : ∀ (t : List Thumb) (m : Option MDisk),
              sortedImageFiles p.extensions { a with thumbs := t, manifest := m } =
                sortedImageFiles p.extensions a := fun t m => rfl
          simp only [processAlbum, readExistingIndex, hSred, hb2, hdry, hdec2,
            Option.bind_eq_bind, Option.some_bind]
          simp only [Bool.false_eq_true, if_false]
          rw [hnoop.1]
        · intro e he
          rcases List.mem_append.mp he with he | he
          · exact hnoop.2 e he
          · rcases List.mem_singleton.mp he with rfl
            rfl
      | false =>
        rw [if_neg (by simp)] at h1
        simp only [Option.some.injEq, Prod.mk.injEq] at h1
        obtain ⟨ha1, hev1⟩ := h1
        have hchar2 : (processAlbumLoop p now2 a.name ex0 (sortedImageFiles p.extensions a)
              (processAlbumLoop p now1 a.name ex0 (sortedImageFiles p.extensions a) a.thumbs).2.1).1 =
            ((sortedImageFiles p.extensions a).filter (imageOk p
              (processAlbumLoop p now1 a.name ex0 (sortedImageFiles p.extensions a) a.thumbs).2.1)).map
              (reconcileImage ex0) :=
          processAlbumLoop_images_eq p now2 a.name ex0 _ _ hs
        have hI2 : (processAlbumLoop p now2 a.name ex0 (sortedImageFiles p.extensions a)
              (processAlbumLoop p now1 a.name ex0 (sortedImageFiles p.extensions a) a.thumbs).2.1).1 =
            (processAlbumLoop p now1 a.name ex0 (sortedImageFiles p.extensions a) a.thumbs).1 := by
          rw [hchar2, hfeq, ← hchar1]
        have hnoop := processAlbumLoop_noop p now2 a.name ex0 hdry
          (sortedImageFiles p.extensions a)
          (processAlbumLoop p now1 a.name ex0 (sortedImageFiles p.extensions a) a.thumbs).2.1 hset
        have hdec2 : albumWriteDecision false (readExistingIndex a.manifest)
            (processAlbumLoop p now2 a.name ex0 (sortedImageFiles p.extensions a)
              (processAlbumLoop p now1 a.name ex0 (sortedImageFiles p.extensions a) a.thumbs).2.1).1 =
            some false := by
          rw [hI2]
          exact hd
        subst ha1
        refine ⟨(processAlbumLoop p now2 a.name ex0 (sortedImageFiles p.extensions a)
            (processAlbumLoop p now1 a.name ex0 (sortedImageFiles p.extensions a) a.thumbs).2.1).2.2 ++
            [.logAlbumUpToDate a.name false], ?_, ?_⟩
        · have hSred : ∀ (t : List Thumb),
              sortedImageFiles p.extensions { a with thumbs := t } =
                sortedImageFiles p.extensions a := fun t => rfl
          simp only [processAlbum, hSred, hb, hdry, hdec2,
            Option.bind_eq_bind, Option.some_bind]
          simp only [Bool.false_eq_true, if_false]
          rw [hnoop.1]
        · intro e he
          rcases List.mem_append.mp he with he | he
          · exact hnoop.2 e he
          · rcases List.mem_singleton.mp he with rfl
            rfl

theorem initAlbumDirs_cons (d : Album) (rest : List Album) :
    initAlbumDirs (d :: rest) =
      if d.name = "thumbnails" then (d :: (initAlbumDirs rest).1, (initAlbumDirs rest).2)
      else ({ d with thumbsDirExists := true } :: (initAlbumDirs rest).1,
        (if d.thumbsDirExists then [] else [Event.mkThumbDir d.name]) ++
          (initAlbumDirs rest).2) := rfl

theorem initAlbumDirs_noop :
    ∀ (dirs : List Album),
      (∀ d ∈ dirs, d.name ≠ "thumbnails" → d.thumbsDirExists = true) →
      initAlbumDirs dirs = (dirs, []) := by
  intro dirs
  induction dirs with
  | nil => intro _; rfl
  | cons d rest ih =>
    intro h
    rw [initAlbumDirs_cons, ih (fun x hx => h x (List.mem_cons_of_mem _ hx))]
    by_cases hn : d.name = "thumbnails"
    · rw [if_pos hn]
    · rw [if_neg hn]
      have hflag := h d (List.mem_cons_self d rest) hn
      have hd : ({ d with thumbsDirExists := true } : Album) = d := by
        cases d
        simp_all
      rw [hd, hflag]
      rfl

theorem initAlbumDirs_mem :
    ∀ (dirs : List Album), ∀ d' ∈ (initAlbumDirs dirs).1,
      ∃ d ∈ dirs, d'.name = d.name ∧ d'.files = d.files ∧ d'.thumbs = d.thumbs ∧
        d'.manifest = d.manifest ∧ (d'.name ≠ "thumbnails" → d'.thumbsDirExists = true) := by
  intro dirs
  induction dirs with
  | nil => intro d' h; cases h
  | cons d rest ih =>
    intro d' h
    rw [initAlbumDirs_cons] at h
    by_cases hn : d.name = "thumbnails"
    · rw [if_pos hn] at h
      rcases List.mem_cons.mp h with h | h
      · subst h
        exact ⟨d', List.mem_cons_self d' rest, rfl, rfl, rfl, rfl, fun hneq => absurd hn hneq⟩
      · rcases ih d' h with ⟨x, hx, hrest⟩
        exact ⟨x, List.mem_cons_of_mem _ hx, hrest⟩
    · rw [if_neg hn] at h
      rcases List.mem_cons.mp h with h | h
      · subst h
        exact ⟨d, List.mem_cons_self d rest, rfl, rfl, rfl, rfl, fun _ => rfl⟩
      · rcases ih d' h with ⟨x, hx, hrest⟩
        exact ⟨x, List.mem_cons_of_mem _ hx, hrest⟩

theorem initAlbumDirs_names :
    ∀ (dirs : List Album), (initAlbumDirs dirs).1.map Album.name = dirs.map Album.name := by
  intro dirs
  induction dirs with
  | nil => rfl
  | cons d rest ih =>
    rw [initAlbumDirs_cons]
    by_cases hn : d.name = "thumbnails"
    · rw [if_pos hn]
      simp only [List.map_cons]
      rw [ih]
    · rw [if_neg hn]
      simp only [List.map_cons]
      rw [ih]

theorem processAlbum_preserves {p : PCfg} {now : Nat} {a a' : Album} {ev : List Event}
    (h : processAlbum p now a = some (a', ev)) :
    a'.name = a.name ∧ a'.files = a.files ∧ a'.thumbsDirExists = a.thumbsDirExists := by
  cases hb : buildExistingImages (readExistingIndex a.manifest) with
  | none => simp [processAlbum, hb] at h
  | some ex =>
    simp only [processAlbum, hb, Option.bind_eq_bind, Option.some_bind] at h
    cases hd : albumWriteDecision p.dryRun (readExistingIndex a.manifest)
        (processAlbumLoop p now a.name ex (sortedImageFiles p.extensions a) a.thumbs).1 with
    | none => rw [hd] at h; simp at h
    | some wr =>
      rw [hd] at h
      simp only [Option.some_bind] at h
      cases wr with
      | true =>
        rw [if_pos rfl] at h
        simp only [Option.some.injEq, Prod.mk.injEq] at h
        obtain ⟨ha', _⟩ := h
        subst ha'
        exact ⟨rfl, rfl, rfl⟩
      | false =>
        rw [if_neg (by simp)] at h
        simp only [Option.some.injEq, Prod.mk.injEq] at h
        obtain ⟨ha', _⟩ := h
        subst ha'
        exact ⟨rfl, rfl, rfl⟩

theorem processDirs_map_name (p : PCfg) (now : Nat) :
    ∀ (dirs dirs1 : List Album) (ev : List Event),
      processDirs p now dirs = some (dirs1, ev) →
      dirs1.map Album.name = dirs.map Album.name := by
  intro dirs
  induction dirs with
  | nil =>
    intro dirs1 ev h
    simp only [processDirs, Option.some.injEq, Prod.mk.injEq] at h
    rw [← h.1]
  | cons d rest ih =>
    intro dirs1 ev h
    by_cases hn : d.name = "thumbnails"
    · simp only [processDirs, hn, if_pos, Option.bind_eq_bind] at h
      cases hr : processDirs p now rest with
      | none => rw [hr] at h; simp at h
      | some r =>
        rw [hr] at h
        simp only [Option.some_bind] at h
        cases h
        simp only [List.map_cons]
        rw [ih r.1 r.2 (by rw [hr])]
    · simp only [processDirs, hn, if_neg, Option.bind_eq_bind] at h
      cases ha : processAlbum p now d with
      | none => rw [ha] at h; simp at h
      | some r1 =>
        rw [ha] at h
        simp only [Option.some_bind] at h
        cases hr : processDirs p now rest with
        | none => rw [hr] at h; simp at h
        | some r =>
          rw [hr] at h
          simp only [Option.some_bind] at h
          cases h
          simp only [List.map_cons]
          rw [ih r.1 r.2 (by rw [hr]), (processAlbum_preserves (by rw [ha] :
            processAlbum p now d = some (r1.1, r1.2))).1]

theorem processDirs_flags (p : PCfg) (now : Nat) :
    ∀ (dirs dirs1 : List Album) (ev : List Event),
      processDirs p now dirs = some (dirs1, ev) →
      (∀ d ∈ dirs, d.name ≠ "thumbnails" → d.thumbsDirExists = true) →
      ∀ d1 ∈ dirs1, d1.name ≠ "thumbnails" → d1.thumbsDirExists = true := by
  intro dirs
  induction dirs with
  | nil =>
    intro dirs1 ev h _
    simp only [processDirs, Option.some.injEq, Prod.mk.injEq] at h
    rw [← h.1]
    intro d1 hd1
    cases hd1
  | cons d rest ih =>
    intro dirs1 ev h hflag
    have hfrest : ∀ x ∈ rest, x.name ≠ "thumbnails" → x.thumbsDirExists = true :=
      fun x hx => hflag x (List.mem_cons_of_mem _ hx)
    by_cases hn : d.name = "thumbnails"
    · simp only [processDirs, hn, if_pos, Option.bind_eq_bind] at h
      cases hr : processDirs p now rest with
      | none => rw [hr] at h; simp at h
      | some r =>
        rw [hr] at h
        simp only [Option.some_bind] at h
        cases h
        intro d1 hd1
        rcases List.mem_cons.mp hd1 with hd1 | hd1
        · subst hd1
          intro hneq
          exact absurd hn hneq
        · exact ih r.1 r.2 (by rw [hr]) hfrest d1 hd1
    · simp only [processDirs, hn, if_neg, Option.bind_eq_bind] at h
      cases ha : processAlbum p now d with
      | none => rw [ha] at h; simp at h
      | some r1 =>
        rw [ha] at h
        simp only [Option.some_bind] at h
        cases hr : processDirs p now rest with
        | none => rw [hr] at h; simp at h
        | some r =>
          rw [hr] at h
          simp only [Option.some_bind] at h
          cases h
          intro d1 hd1
          rcases List.mem_cons.mp hd1 with hd1 | hd1
          · subst hd1
            intro _
            have hpres := processAlbum_preserves (show processAlbum p now d = some (r1.1, r1.2)
              from by rw [ha])
            rw [hpres.2.2]
            exact hflag d (List.mem_cons_self d rest) hn
          · exact ih r.1 r.2 (by rw [hr]) hfrest d1 hd1

theorem processDirs_idem (p : PCfg) (now1 now2 : Nat) (hdry : p.dryRun = false) :
    ∀ (dirs dirs1 : List Album) (ev1 : List Event),
      (∀ a ∈ dirs, ∀ f ∈ a.files, ∀ g ∈ a.files, f.name = g.name → f = g) →
      (∀ a ∈ dirs, ∀ f ∈ a.files, f.mtime ≤ now1) →
      processDirs p now1 dirs = some (dirs1, ev1) →
      ∃ ev2, processDirs p now2 dirs1 = some (dirs1, ev2) ∧
        ∀ e ∈ ev2, e.isFsWrite = false := by
  intro dirs
  induction dirs with
  | nil =>
    intro dirs1 ev1 _ _ h
    simp only [processDirs, Option.some.injEq, Prod.mk.injEq] at h
    refine ⟨[], ?_, by simp⟩
    rw [← h.1]
    rfl
  | cons d rest ih =>
    intro dirs1 ev1 hsame hmt h
    have hsrest := fun a ha => hsame a (List.mem_cons_of_mem _ ha)
    have hmrest := fun a ha => hmt a (List.mem_cons_of_mem _ ha)
    by_cases hn : d.name = "thumbnails"
    · simp only [processDirs, hn, if_pos, Option.bind_eq_bind] at h
      cases hr : processDirs p now1 rest with
      | none => rw [hr] at h; simp at h
      | some r =>
        rw [hr] at h
        simp only [Option.some_bind] at h
        cases h
        obtain ⟨ev2, hrun2, hwr⟩ := ih r.1 r.2 hsrest hmrest (by rw [hr])
        refine ⟨ev2, ?_, hwr⟩
        simp only [processDirs, hn, if_pos, Option.bind_eq_bind, hrun2, Option.some_bind]
    · simp only [processDirs, hn, if_neg, Option.bind_eq_bind] at h
      cases ha : processAlbum p now1 d with
      | none => rw [ha] at h; simp at h
      | some r1 =>
        rw [ha] at h
        simp only [Option.some_bind] at h
        cases hr : processDirs p now1 rest with
        | none => rw [hr] at h; simp at h
        | some r =>
          rw [hr] at h
          simp only [Option.some_bind] at h
          cases h
          have ha' : processAlbum p now1 d = some (r1.1, r1.2) := by rw [ha]
          obtain ⟨eva, hruna, hwa⟩ := processAlbum_idem p now1 now2 d r1.1 r1.2 hdry
            (hsame d (List.mem_cons_self d rest)) (hmt d (List.mem_cons_self d rest)) ha'
          obtain ⟨ev2, hrun2, hwr⟩ := ih r.1 r.2 hsrest hmrest (by rw [hr])
          have hn1 : ¬ r1.1.name = "thumbnails" := by
            rw [(processAlbum_preserves ha').1]
            exact hn
          refine ⟨eva ++ ev2, ?_, ?_⟩
          · simp only [processDirs, hn1, if_neg, if_false, Option.bind_eq_bind, hruna, hrun2,
              Option.some_bind]
          · intro e he
            rcases List.mem_append.mp he with he | he
            · exact hwa e he
            · exact hwr e he

theorem filter_names_eq {l1 l2 : List Album}
    (h : l1.map Album.name = l2.map Album.name) :
    (l1.filter (fun d => d.name ≠ "thumbnails")).map Album.name =
      (l2.filter (fun d => d.name ≠ "thumbnails")).map Album.name := by
  induction l1 generalizing l2 with
  | nil =>
    cases l2 with
    | nil => rfl
    | cons e r2 => simp at h
  | cons d rest ih =>
    cases l2 with
    | nil => simp at h
    | cons e r2 =>
      simp only [List.map_cons, List.cons.injEq] at h
      obtain ⟨hn, hr⟩ := h
      simp only [List.filter_cons]
      by_cases he : e.name = "thumbnails"
      · rw [if_neg (by simp [hn, he]), if_neg (by simp [he])]
        exact ih hr
      · rw [if_pos (by simp [hn, he]), if_pos (by simp [he])]
        simp only [List.map_cons]
        rw [hn, ih hr]

theorem mkRootIndex_get_albums (names : List String) (now : Nat) :
    (mkRootIndex names now).get "albums" = some (Json.jarrOf (names.map Json.jstr)) := by
  simp [mkRootIndex, Json.jobjOf, Json.get]

theorem rootWriteDecision_false_elim {existing : Option Json} {v : Json}
    (h : rootWriteDecision false existing v = some false) :
    ∃ j, existing = some j ∧ j.truthy = true ∧ j.isObj = true ∧ j.get "albums" = some v := by
  cases existing with
  | none => simp [rootWriteDecision] at h
  | some j =>
    by_cases ht : j.truthy = true
    · by_cases ho : j.isObj = true
      · refine ⟨j, rfl, ht, ho, ?_⟩
        simp [rootWriteDecision, ht, ho] at h
        exact h
      · simp [rootWriteDecision, ht, ho] at h
    · simp [rootWriteDecision, ht] at h

theorem rootWriteDecision_false_of_eq {j v : Json}
    (ht : j.truthy = true) (ho : j.isObj = true) (hg : j.get "albums" = some v) :
    rootWriteDecision false (some j) v = some false := by
  simp [rootWriteDecision, ht, ho, hg]

theorem processImages_result (p : PCfg) (now : Nat) (g g' : Gallery) (ev : List Event)
    (h : processImages p now g = some (g', ev)) :
    g'.rootExists = g.rootExists ∧
    ∃ dirs1 ev1, processDirs p now g.dirs = some (dirs1, ev1) ∧ g'.dirs = dirs1 := by
  simp only [processImages, Option.bind_eq_bind] at h
  cases hw : rootWriteDecision p.dryRun (readExistingIndex g.rootManifest)
      (Json.jarrOf (((getAlbums g).map Album.name).map Json.jstr)) with
  | none => rw [hw] at h; simp at h
  | some wr =>
    rw [hw] at h
    simp only [Option.some_bind] at h
    cases hr : processDirs p now g.dirs with
    | none => rw [hr] at h; simp at h
    | some r =>
      rw [hr] at h
      simp only [Option.some_bind, Option.some.injEq, Prod.mk.injEq] at h
      obtain ⟨hg, _⟩ := h
      rw [← hg]
      exact ⟨rfl, r.1, r.2, by simp [hr], rfl⟩

theorem processImages_flags (p : PCfg) (now : Nat) {g g' : Gallery} {ev : List Event}
    (h : processImages p now g = some (g', ev))
    (hf : ∀ d ∈ g.dirs, d.name ≠ "thumbnails" → d.thumbsDirExists = true) :
    ∀ d ∈ g'.dirs, d.name ≠ "thumbnails" → d.thumbsDirExists = true := by
  obtain ⟨_, dirs1, ev1, hr, hdirs⟩ := processImages_result p now g g' ev h
  rw [hdirs]
  exact processDirs_flags p now g.dirs dirs1 ev1 hr hf

theorem processImages_idem (p : PCfg) (now1 now2 : Nat) (g g1 : Gallery) (ev1 : List Event)
    (hdry : p.dryRun = false)
    (hsame : ∀ a ∈ g.dirs, ∀ f ∈ a.files, ∀ f' ∈ a.files, f.name = f'.name → f = f')
    (hmt : ∀ a ∈ g.dirs, ∀ f ∈ a.files, f.mtime ≤ now1)
    (h1 : processImages p now1 g = some (g1, ev1)) :
    ∃ ev2, processImages p now2 g1 = some (g1, ev2) ∧ ∀ e ∈ ev2, e.isFsWrite = false := by
  simp only [processImages, Option.bind_eq_bind, hdry] at h1
  cases hw : rootWriteDecision false (readExistingIndex g.rootManifest)
      (Json.jarrOf (((getAlbums g).map Album.name).map Json.jstr)) with
  | none => rw [hw] at h1; simp at h1
  | some wr =>
    rw [hw] at h1
    simp only [Option.some_bind] at h1
    cases hr : processDirs p now1 g.dirs with
    | none => rw [hr] at h1; simp at h1
    | some r =>
      rw [hr] at h1
      simp only [Option.some_bind, Option.some.injEq, Prod.mk.injEq] at h1
      obtain ⟨hg1, hev1⟩ := h1
      obtain ⟨ev2, hrun2, hwr2⟩ := processDirs_idem p now1 now2 hdry g.dirs r.1 r.2
        hsame hmt (by rw [hr])
      have hnm := processDirs_map_name p now1 g.dirs r.1 r.2 (by rw [hr])
      have hnames : (r.1.filter (fun d => d.name ≠ "thumbnails")).map Album.name =
          (getAlbums g).map Album.name := filter_names_eq hnm
      cases wr with
      | true =>
        rw [if_pos rfl] at hg1 hev1
        have hdec2 : rootWriteDecision false
            (some (mkRootIndex ((getAlbums g).map Album.name) now1))
            (Json.jarrOf ((((getAlbums g).map Album.name)).map Json.jstr)) = some false :=
          rootWriteDecision_false_of_eq rfl rfl
            (mkRootIndex_get_albums ((getAlbums g).map Album.name) now1)
        have hga : getAlbums (Gallery.mk g.rootExists
            (some (MDisk.valid (mkRootIndex ((getAlbums g).map Album.name) now1)))
            r.1) = r.1.filter (fun d => d.name ≠ "thumbnails") := rfl
        have hrd : readExistingIndex (some (MDisk.valid
            (mkRootIndex ((getAlbums g).map Album.name) now1))) =
            some (mkRootIndex ((getAlbums g).map Album.name) now1) := rfl
        subst hg1
        refine ⟨[Event.logRootUpToDate false] ++ ev2, ?_, ?_⟩
        · simp only [processImages, Option.bind_eq_bind, hdry, hga, hnames, hrd, hdec2,
            Option.some_bind, hrun2, Bool.false_eq_true, if_false]
        · intro e he
          rcases List.mem_append.mp he with he | he
          · rcases List.mem_singleton.mp he with rfl
            rfl
          · exact hwr2 e he
      | false =>
        rw [if_neg (by simp)] at hg1 hev1
        obtain ⟨j, hre, ht, ho, hgets⟩ := rootWriteDecision_false_elim hw
        have hdec2 : rootWriteDecision false (some j)
            (Json.jarrOf ((((getAlbums g).map Album.name)).map Json.jstr)) = some false :=
          rootWriteDecision_false_of_eq ht ho hgets
        have hga : getAlbums (Gallery.mk g.rootExists g.rootManifest r.1) =
            r.1.filter (fun d => d.name ≠ "thumbnails") := rfl
        subst hg1
        refine ⟨[Event.logRootUpToDate false] ++ ev2, ?_, ?_⟩
        · simp only [processImages, Option.bind_eq_bind, hdry, hga, hnames, hre, hdec2,
            Option.some_bind, hrun2, Bool.false_eq_true, if_false]
        · intro e he
          rcases List.mem_append.mp he with he | he
          · rcases List.mem_singleton.mp he with rfl
            rfl
          · exact hwr2 e he

theorem Event.isFsWrite_eq_false_of_mutation {e : Event} (h : e.isMutationOrCall = false) :
    e.isFsWrite = false := by
  cases e <;> simp_all [Event.isMutationOrCall, Event.isFsWrite]

/-- C1 — Idempotence of the indexer: when a run over a gallery (with
well-formed directory listings: distinct file names per album, and no
file modified after the first run's clock) completes, a second run with
the same configuration over the resulting state performs no filesystem
write at all — no root or album manifest is written, no thumbnail is
regenerated, no thumbnails directory is created — and leaves the whole
gallery state, in particular every manifest, byte-for-byte identical. -/
theorem indexer_idempotent (c : Cfg) (now1 now2 : Nat) (g g1 g2 : Gallery)
    (ev1 ev2 : List Event)
    (hsame : ∀ a ∈ g.dirs, ∀ f ∈ a.files, ∀ f' ∈ a.files, f.name = f'.name → f = f')
    (hmt : ∀ a ∈ g.dirs, ∀ f ∈ a.files, f.mtime ≤ now1)
    (h1 : runProcessor c now1 g = .ok (g1, ev1))
    (h2 : runProcessor c now2 g1 = .ok (g2, ev2)) :
    g2 = g1 ∧ ∀ e ∈ ev2, e.isFsWrite = false := by
  by_cases hdry : c.dryRun = true
  · obtain ⟨hg, hev⟩ := dry_run_no_mutation c now2 g1 g2 ev2 hdry h2
    exact ⟨hg, fun e he => Event.isFsWrite_eq_false_of_mutation (hev e he)⟩
  · rw [Bool.not_eq_true] at hdry
    have hpdry : (mkPCfg c).dryRun = false := hdry
    unfold runProcessor at h1
    by_cases hre : g.rootExists = true
    · rw [if_neg (by simp [hre])] at h1
      simp only [initDirs, hpdry, Bool.false_eq_true, if_false] at h1
      cases hpi : processImages (mkPCfg c) now1
          { g with dirs := (initAlbumDirs g.dirs).1 } with
      | none => rw [hpi] at h1; cases h1
      | some r2 =>
        rw [hpi] at h1
        simp only [Except.ok.injEq, Prod.mk.injEq] at h1
        obtain ⟨hg1, hev1⟩ := h1
        have hpi' : processImages (mkPCfg c) now1 { g with dirs := (initAlbumDirs g.dirs).1 } =
            some (r2.1, r2.2) := by rw [hpi]
        have hsame' : ∀ a ∈ ({ g with dirs := (initAlbumDirs g.dirs).1 } : Gallery).dirs,
            ∀ f ∈ a.files, ∀ f' ∈ a.files, f.name = f'.name → f = f' := by
          intro a ha
          obtain ⟨d, hd, _, hfe, _, _, _⟩ := initAlbumDirs_mem g.dirs a ha
          rw [hfe]
          exact hsame d hd
        have hmt' : ∀ a ∈ ({ g with dirs := (initAlbumDirs g.dirs).1 } : Gallery).dirs,
            ∀ f ∈ a.files, f.mtime ≤ now1 := by
          intro a ha
          obtain ⟨d, hd, _, hfe, _, _, _⟩ := initAlbumDirs_mem g.dirs a ha
          rw [hfe]
          exact hmt d hd
        obtain ⟨ev2', hrun2', hw'⟩ := processImages_idem (mkPCfg c) now1 now2 _ r2.1 r2.2
          hpdry hsame' hmt' hpi'
        have hre2 : r2.1.rootExists = true := by
          rw [(processImages_result _ _ _ _ _ hpi').1]
          exact hre
        have hflags : ∀ d ∈ r2.1.dirs, d.name ≠ "thumbnails" → d.thumbsDirExists = true := by
          apply processImages_flags (mkPCfg c) now1 hpi'
          intro d hd
          obtain ⟨x, hx, _, _, _, _, hflag⟩ := initAlbumDirs_mem g.dirs d hd
          exact hflag
        have hinit2 : initAlbumDirs r2.1.dirs = (r2.1.dirs, []) :=
          initAlbumDirs_noop r2.1.dirs hflags
        have hrunfull : runProcessor c now2 r2.1 = .ok (r2.1, ev2') := by
          unfold runProcessor
          rw [if_neg (by simp [hre2])]
          simp only [initDirs, hpdry, Bool.false_eq_true, if_false, hinit2, hrun2',
            List.nil_append]
        subst hg1
        rw [hrunfull] at h2
        simp only [Except.ok.injEq, Prod.mk.injEq] at h2
        obtain ⟨hg2, hev2⟩ := h2
        refine ⟨hg2.symm, ?_⟩
        intro e he
        rw [← hev2] at he
        exact hw' e he
    · rw [if_pos (by simp [Bool.not_eq_true] at hre ⊢; exact hre)] at h1
      cases h1

/-- Witness for `indexer_idempotent` at a concrete one-album gallery. -/
theorem indexer_idempotent_witness :
    (⟨true, some (MDisk.valid (mkRootIndex ["A"] 10)),
      [⟨"A", [⟨"a.jpg", 5, 100, 640, 480, "h1", true, true⟩],
        [⟨"a.jpg", 10, 300, 300, true⟩], true,
        some (MDisk.valid (mkAlbumIndex "A"
          [getImageInfo ⟨"a.jpg", 5, 100, 640, 480, "h1", true, true⟩] 10))⟩]⟩ : Gallery) =
      ⟨true, some (MDisk.valid (mkRootIndex ["A"] 10)),
      [⟨"A", [⟨"a.jpg", 5, 100, 640, 480, "h1", true, true⟩],
        [⟨"a.jpg", 10, 300, 300, true⟩], true,
        some (MDisk.valid (mkAlbumIndex "A"
          [getImageInfo ⟨"a.jpg", 5, 100, 640, 480, "h1", true, true⟩] 10))⟩]⟩ ∧
    ∀ e ∈ [Event.logRootUpToDate false, Event.logThumbUpToDate "A" "a.jpg",
      Event.logAlbumUpToDate "A" false], e.isFsWrite = false :=
  indexer_idempotent ⟨[".jpg"], 300, 300, false⟩ 10 20
    ⟨true, none, [⟨"A", [⟨"a.jpg", 5, 100, 640, 480, "h1", true, true⟩], [], false, none⟩]⟩
    ⟨true, some (MDisk.valid (mkRootIndex ["A"] 10)),
      [⟨"A", [⟨"a.jpg", 5, 100, 640, 480, "h1", true, true⟩],
        [⟨"a.jpg", 10, 300, 300, true⟩], true,
        some (MDisk.valid (mkAlbumIndex "A"
          [getImageInfo ⟨"a.jpg", 5, 100, 640, 480, "h1", true, true⟩] 10))⟩]⟩
    ⟨true, some (MDisk.valid (mkRootIndex ["A"] 10)),
      [⟨"A", [⟨"a.jpg", 5, 100, 640, 480, "h1", true, true⟩],
        [⟨"a.jpg", 10, 300, 300, true⟩], true,
        some (MDisk.valid (mkAlbumIndex "A"
          [getImageInfo ⟨"a.jpg", 5, 100, 640, 480, "h1", true, true⟩] 10))⟩]⟩
    [Event.mkThumbDir "A", Event.wroteRootManifest (mkRootIndex ["A"] 10),
      Event.logRootCreated 1, Event.ranConvert "A" "a.jpg" true,
      Event.wroteThumb "A" "a.jpg",
      Event.wroteAlbumManifest "A" (mkAlbumIndex "A"
        [getImageInfo ⟨"a.jpg", 5, 100, 640, 480, "h1", true, true⟩] 10),
      Event.logAlbumCreated "A" 1]
    [Event.logRootUpToDate false, Event.logThumbUpToDate "A" "a.jpg",
      Event.logAlbumUpToDate "A" false]
    (by decide) (by decide) (by decide) (by decide)
